import Mathlib

/-!
Verification of the MiniGames repository: a shallow embedding of its
bit-vector engine (`LongInt`, `IntBitBoard`, `LongIntBitBoard`), the generic
game board (`Board`), and the minimax / alpha-beta search of the game
controller (`Controller`), together with theorems settling the specification
claims about them.

Conventions of the embedding:
* a JavaScript `Uint32Array` is a `List Nat` whose entries are `< 2^32`
  (the well-formedness predicate `LWF`);
* JavaScript bitwise operators convert their operands with `ToUint32` /
  `ToInt32` and mask shift counts with `& 31`; the helpers below reproduce
  this exactly (`toUint32`, `toInt32`, `wordShl`, `wordShrU`, ...);
* `undefined` read from an array out of range converts to `0` under `>>>`
  and `<<`, which is what `List.getD _ _ 0` yields;
* in-place mutation becomes explicit state passing: a mutator returns the
  new value, a query returns its answer (state threading for the frame
  claim is made explicit in the `*ST` functions further down).
-/

namespace MiniGames

/-- `2^32`, the modulus of JavaScript's unsigned 32-bit conversions. -/
def U32 : Nat := 4294967296

/-- JavaScript `ToUint32`: the operand's bit pattern as a natural `< 2^32`. -/
def toUint32 (x : Int) : Nat := (x % (U32 : Int)).toNat

/-- JavaScript `ToInt32`: the operand's bit pattern read as a signed 32-bit value. -/
def toInt32 (x : Int) : Int :=
  let u := toUint32 x
  if u < 2147483648 then (u : Int) else (u : Int) - (U32 : Int)

/-- Bit pattern of the JS shift `a << n` on a 32-bit word, as an unsigned word
(shift counts are masked with `& 31` as JS does). -/
def wordShl (a n : Nat) : Nat := a % U32 * 2 ^ (n % 32) % U32

/-- Bit pattern of the JS unsigned shift `a >>> n` on a 32-bit word. -/
def wordShrU (a n : Nat) : Nat := a % U32 / 2 ^ (n % 32)

/-- Bit pattern of the JS arithmetic shift `a >> n` on a 32-bit word: the sign
bit (bit 31) is replicated into the vacated high bits. -/
def wordShrS (a n : Nat) : Nat :=
  let u := a % U32
  if u < 2147483648 then u / 2 ^ (n % 32)
  else u / 2 ^ (n % 32) + (U32 - 2 ^ (32 - n % 32))

/-- Bit pattern of the JS bitwise complement `~a` on a 32-bit word: flip all
32 bits. -/
def wordNot (a : Nat) : Nat := a % U32 ^^^ (U32 - 1)

/-- JS `x & y` on numbers (`ToInt32` both sides, combine, read back signed). -/
def jsAnd (x y : Int) : Int := toInt32 ((toUint32 x &&& toUint32 y : Nat) : Int)

/-- JS `x | y` on numbers. -/
def jsOr (x y : Int) : Int := toInt32 ((toUint32 x ||| toUint32 y : Nat) : Int)

/-- JS `x ^ y` on numbers. -/
def jsXor (x y : Int) : Int := toInt32 ((toUint32 x ^^^ toUint32 y : Nat) : Int)

/-- JS `~x` on numbers. -/
def jsNot (x : Int) : Int := toInt32 ((wordNot (toUint32 x) : Nat) : Int)

/-- JS `x << n` on numbers (result is a signed 32-bit value). -/
def jsShl (x : Int) (n : Nat) : Int := toInt32 ((wordShl (toUint32 x) n : Nat) : Int)

/-- JS `x >>> n` on numbers (result is an unsigned 32-bit value). -/
def jsShrU (x : Int) (n : Nat) : Int := ((wordShrU (toUint32 x) n : Nat) : Int)

/-- JS `x >> n` on numbers (result is a signed 32-bit value). -/
def jsShrS (x : Int) (n : Nat) : Int := toInt32 ((wordShrS (toUint32 x) n : Nat) : Int)

/-! ## LongInt (src/unnamed/part_018)

A `LongInt` stores a little-endian `Uint32Array`; we model the array as a
`List Nat`.  All operations below mirror the source methods line by line. -/

/-- Well-formed word list: every entry fits in 32 bits (the `Uint32Array`
invariant). -/
def LWF (v : List Nat) : Prop := ∀ w ∈ v, w < U32

instance : DecidablePred LWF := fun v => List.decidableBAll _ v

/-- `LongInt.prototype.getMatchingLongInt`: stretch (zero-extend) or truncate
`v` to length `L`. -/
def matchLen (L : Nat) (v : List Nat) : List Nat :=
  (List.range L).map fun i => v.getD i 0

/-- `LongInt.prototype.shiftArrayRight(count, fill)`: move whole words towards
the most significant end; `data[i] = data[i - count] ?? fill`. -/
def shiftArrayRight (v : List Nat) (count : Nat) (fill : Nat) : List Nat :=
  (List.range v.length).map fun i => if i < count then fill else v.getD (i - count) fill

/-- `LongInt.prototype.shiftArrayLeft(count, fill)`: move whole words towards
the least significant end; `data[i] = data[i + count] ?? fill`. -/
def shiftArrayLeft (v : List Nat) (count : Nat) (fill : Nat) : List Nat :=
  (List.range v.length).map fun i => if i + count < v.length then v.getD (i + count) fill else fill

/-- `LongInt.prototype.leftShift(shiftAmount)`.  The loop runs downwards and
reads `data[i]` and `data[i-1]` before either is overwritten, so it is the
index-wise map below; `data[-1] >>> k` is `0` in JS.  Note that the carry term
`data[i-1] >>> (32 - s)` is `data[i-1] >>> 0` when `s = 0` because JS masks
shift counts with `& 31`. -/
def longLeftShift (v : List Nat) (n : Nat) : List Nat :=
  if n = 0 then v
  else
    let v1 := if 31 < n then shiftArrayRight v (n / 32) 0 else v
    if n = 32 then v1
    else
      let s := n % 32
      (List.range v1.length).map fun i =>
        wordShl (v1.getD i 0) s |||
          (if i = 0 then 0 else wordShrU (v1.getD (i - 1) 0) (32 - s))

/-- `LongInt.prototype.rightShift(shiftAmount)` (logical).  The loop runs
upwards and reads `data[i]` and `data[i+1]` before either is overwritten;
`data[len] << k` is `0` in JS. -/
def longRightShift (v : List Nat) (n : Nat) : List Nat :=
  if n = 0 then v
  else
    let v1 := if n = 32 then v
      else
        let s := n % 32
        (List.range v.length).map fun i =>
          wordShrU (v.getD i 0) s ||| wordShl (v.getD (i + 1) 0) (32 - s)
    if 31 < n then shiftArrayLeft v1 (n / 32) 0 else v1

/-- `LongInt.prototype.arithmeticRightShift(shiftAmount)`: same structure as
the logical right shift, with `>>` per word and vacated whole words filled
with `~0 >>> 0 = 0xFFFFFFFF` unconditionally. -/
def longArithShr (v : List Nat) (n : Nat) : List Nat :=
  if n = 0 then v
  else
    let v1 := if n = 32 then v
      else
        let s := n % 32
        (List.range v.length).map fun i =>
          wordShrS (v.getD i 0) s ||| wordShl (v.getD (i + 1) 0) (32 - s)
    if 31 < n then shiftArrayLeft v1 (n / 32) (U32 - 1) else v1

/-- `LongInt.prototype.and` (in place on the receiver; the right operand is
first stretched/truncated to the receiver's length). -/
def longAnd (a b : List Nat) : List Nat :=
  (List.range a.length).map fun i => a.getD i 0 &&& (matchLen a.length b).getD i 0

/-- `LongInt.prototype.or`. -/
def longOr (a b : List Nat) : List Nat :=
  (List.range a.length).map fun i => a.getD i 0 ||| (matchLen a.length b).getD i 0

/-- `LongInt.prototype.xor`. -/
def longXor (a b : List Nat) : List Nat :=
  (List.range a.length).map fun i => a.getD i 0 ^^^ (matchLen a.length b).getD i 0

/-- `LongInt.prototype.not` (wordwise `~`). -/
def longNot (a : List Nat) : List Nat := a.map wordNot

/-- `LongInt.prototype.equals` between two word lists: both operands are
stretched/truncated to the longer length, then compared word by word. -/
def longEquals (a b : List Nat) : Bool :=
  let L := if b.length < a.length then a.length else b.length
  matchLen L a = matchLen L b

/-- `LongInt.prototype.equals` with a plain-number right operand
(`new LongInt([value])`). -/
def longEqualsNum (a : List Nat) (x : Nat) : Bool := longEquals a [x % U32]

/-- The unsigned integer denoted by a little-endian word list. -/
def longVal : List Nat → Nat
  | [] => 0
  | w :: ws => w % U32 + U32 * longVal ws

/-! ### The specification's description of the shifts

The spec describes a shift by `n` as: move whole words by `n / 32` positions,
then apply the remaining `n % 32` bit shift with carry across word
boundaries; bits shifted past the declared width are dropped and vacated
positions become zero.  The two definitions below are modelled from those
words (they are the comparison point for the refinement claim, not a copy of
the source). -/

/-- Left shift as described by the spec: word `i` of the result takes the
bits of source word `i - n/32`, shifted up by `n % 32`, with the spilled-over
low bits of word `i - n/32 - 1` carried in; out-of-range words are zero. -/
def specLeftShift (v : List Nat) (n : Nat) : List Nat :=
  let k := n / 32
  let s := n % 32
  (List.range v.length).map fun i =>
    (if k ≤ i then wordShl (v.getD (i - k) 0) s else 0) |||
      (if s ≠ 0 ∧ k + 1 ≤ i then wordShrU (v.getD (i - k - 1) 0) (32 - s) else 0)

/-- Logical right shift as described by the spec: word `i` of the result
takes the bits of source word `i + n/32`, shifted down by `n % 32`, with the
low bits of word `i + n/32 + 1` carried in; out-of-range words are zero. -/
def specRightShift (v : List Nat) (n : Nat) : List Nat :=
  let k := n / 32
  let s := n % 32
  (List.range v.length).map fun i =>
    wordShrU (v.getD (i + k) 0) s |||
      (if s ≠ 0 then wordShl (v.getD (i + k + 1) 0) (32 - s) else 0)

/-! ## IntBitBoard (src/src/BitBoard/IntBitBoard.ts)

Backed by one plain JS number, so results of `<<`, `&`, `|`, `~` are signed
32-bit values; we keep the data as an `Int` and apply the JS conversions. -/

/-- `IntBitBoard.prototype.getBit`: `(data >>> bit) & 1`. -/
def intGetBit (d : Int) (b : Nat) : Nat := wordShrU (toUint32 d) b % 2

/-- `IntBitBoard.prototype.setBit`: `data |= 1 << bit`. -/
def intSetBit (d : Int) (b : Nat) : Int := jsOr d (jsShl 1 b)

/-- `IntBitBoard.prototype.clearBit`: `data &= ~(1 << bit)`. -/
def intClearBit (d : Int) (b : Nat) : Int := jsAnd d (jsNot (jsShl 1 b))

/-! ## BitBoard facade

`BB` is the union of the two backings: `IntBitBoard` over a JS number and
`LongIntBitBoard` over a `LongInt` word list. -/

inductive BB where
  | int (d : Int)
  | long (d : List Nat)
deriving DecidableEq, Repr

namespace BB

/-- `getBit`: dispatches to `IntBitBoard.getBit` or to
`LongInt.rightShift(data, bit).and(1).data[0]`. -/
def getBit : BB → Nat → Nat
  | .int d, b => intGetBit d b
  | .long v, b => (longAnd (longRightShift v b) (matchLen v.length [1])).getD 0 0

/-- `setBit`: `data |= 1 << bit` resp. `data.or(getMatchingLongInt(data, 1).leftShift(bit))`. -/
def setBit : BB → Nat → BB
  | .int d, b => .int (intSetBit d b)
  | .long v, b => .long (longOr v (longLeftShift (matchLen v.length [1]) b))

/-- `clearBit`: `data &= ~(1 << bit)` resp.
`data.and(getMatchingLongInt(data, 1).leftShift(bit).not())`. -/
def clearBit : BB → Nat → BB
  | .int d, b => .int (intClearBit d b)
  | .long v, b => .long (longAnd v (longNot (longLeftShift (matchLen v.length [1]) b)))

/-- `leftShift` (returns a new board in both backings). -/
def leftShift : BB → Nat → BB
  | .int d, n => .int (jsShl d n)
  | .long v, n => .long (longLeftShift v n)

/-- `rightShift` (logical). -/
def rightShift : BB → Nat → BB
  | .int d, n => .int (jsShrU d n)
  | .long v, n => .long (longRightShift v n)

/-- `and` with another board of the same backing (the only case the game code
produces; a mixed pair keeps the left operand unchanged). -/
def and : BB → BB → BB
  | .int d, .int e => .int (jsAnd d e)
  | .long v, .long w => .long (longAnd v w)
  | b, _ => b

/-- `or` with another board of the same backing. -/
def or : BB → BB → BB
  | .int d, .int e => .int (jsOr d e)
  | .long v, .long w => .long (longOr v w)
  | b, _ => b

/-- `equals` with another board of the same backing (`===` on the number,
`LongInt.equals` on the word lists; a mixed pair is never compared). -/
def equals : BB → BB → Bool
  | .int d, .int e => d = e
  | .long v, .long w => longEquals v w
  | _, _ => false

/-- `equals` with a plain-number operand. -/
def equalsNum : BB → Nat → Bool
  | .int d, x => d = (x : Int)
  | .long v, x => longEqualsNum v x

end BB

/-! ## Board (src/src/Base/Board.ts) -/

/-- A cell position `{ x, y }` (the source's coordinates are in range for
every call the claims quantify over, so naturals suffice). -/
structure Pos where
  x : Nat
  y : Nat
deriving DecidableEq, Repr

/-- The result type of `Board.winner`: a player id, `null` (draw) or the
still-playing sentinel `false`. -/
inductive Winner where
  | p0
  | p1
  | draw
  | playing
deriving DecidableEq, Repr

/-- The state and configuration of a `Board` instance: dimensions, board
counts, the packed bit board, the move stack (head = most recent push) and
the winning states supplied by the concrete game. -/
structure GB where
  boardWidth : Nat
  boardHeight : Nat
  numberOfPlayerBoards : Nat
  numberOfBoards : Nat
  bitBoard : BB
  moves : List Nat
  winningStates : List BB
deriving DecidableEq, Repr

namespace GB

/-- `width * height`, the size of one player sub-board. -/
def boardSize (b : GB) : Nat := b.boardWidth * b.boardHeight

/-- `Board.prototype.getIndex`: `width * y + x`. -/
def getIndex (b : GB) (m : Pos) : Nat := b.boardWidth * m.y + m.x

/-- `Board.prototype.getBitIndex`: cell index offset by the player's
sub-board base. -/
def getBitIndex (b : GB) (m : Pos) (p : Nat) : Nat :=
  b.getIndex m + b.boardSize * p

/-- `Board.prototype.isValidPosition`. -/
def isValidPosition (b : GB) (m : Pos) : Bool :=
  m.x < b.boardWidth && m.y < b.boardHeight

/-- The constructor of `Board`: a zeroed `LongIntBitBoard` of
`ceil(totalBits / 32)` words when more than 32 bits are needed, else a zeroed
`IntBitBoard`; the move stack starts empty, `winningStates` comes from the
concrete game. -/
def mk' (width height playerBoardCount extraBoardCount : Nat) (ws : List BB) : GB :=
  let numberOfBoards := playerBoardCount + extraBoardCount
  let totalBits := width * height * numberOfBoards
  { boardWidth := width
    boardHeight := height
    numberOfPlayerBoards := playerBoardCount
    numberOfBoards := numberOfBoards
    bitBoard := if 32 < totalBits then .long (List.replicate ((totalBits + 31) / 32) 0) else .int 0
    moves := []
    winningStates := ws }

/-- `Board.prototype.makeMove`: push the absolute bit index, set the bit.
No legality check is performed. -/
def makeMove (b : GB) (m : Pos) (p : Nat) : GB :=
  let bit := b.getBitIndex m p
  { b with moves := bit :: b.moves, bitBoard := b.bitBoard.setBit bit }

/-- `Board.prototype.undoLastMove`: pop and clear.  The first component
reports the thrown error message, the second the board state after the call
(unchanged when the pop finds an empty stack, because the throw happens
before any bit is touched). -/
def undoLastMoveE (b : GB) : Option String × GB :=
  match b.moves with
  | [] => (some "No move to undo.", b)
  | bit :: rest => (none, { b with moves := rest, bitBoard := b.bitBoard.clearBit bit })

/-- `undoLastMove` in the non-throwing situations the search loop uses (after
`makeMove` the stack is never empty, so the error branch is unreachable
there). -/
def undoLastMove (b : GB) : GB := (undoLastMoveE b).2

/-- `Board.prototype.cellOccupier`: first player board, in id order, holding
the cell's bit. -/
def cellOccupier (b : GB) (cell : Pos) : Option Nat :=
  (List.range b.numberOfPlayerBoards).find? fun i =>
    b.bitBoard.getBit (b.getBitIndex cell i) = 1

/-- `Board.prototype.moveIsValid`. -/
def moveIsValid (b : GB) (m : Pos) : Bool :=
  b.isValidPosition m && b.cellOccupier m = none

/-- `Board.prototype.emptyCells`: row-major enumeration (y outer, x inner) of
the unoccupied cells. -/
def emptyCells (b : GB) : List Pos :=
  ((List.range b.boardHeight).map fun y =>
    ((List.range b.boardWidth).map fun x => Pos.mk x y).filter
      fun c => b.cellOccupier c = none).flatten

/-- Total bit count of the backing storage
(`(data.wordCount : 1) * 32` as in `getPlayerBoard`). -/
def totalBitsOfBacking (b : GB) : Nat :=
  (match b.bitBoard with
   | .long v => v.length
   | .int _ => 1) * 32

/-- `Board.prototype.getPlayerBoard`: shift the player's sub-board to the top
of the backing storage and back down to bit 0. -/
def getPlayerBoard (b : GB) (p : Nat) : BB :=
  (b.bitBoard.leftShift (b.totalBitsOfBacking - b.boardSize * (p + 1))).rightShift
    (b.totalBitsOfBacking - b.boardSize)

/-- The zeroed accumulator board `isFull` / `isEmpty` start from (sized to
one sub-board). -/
def emptyAccBoard (b : GB) : BB :=
  match b.bitBoard with
  | .long _ => .long (List.replicate ((b.boardSize + 31) / 32) 0)
  | .int _ => .int 0

/-- The all-ones value of one sub-board that `isFull` compares against. -/
def fullValue (b : GB) : BB :=
  match b.bitBoard with
  | .long _ =>
    let L := (b.boardSize + 31) / 32
    .long (List.replicate (L - 1) (U32 - 1) ++ [2 ^ (b.boardSize - (L - 1) * 32) - 1])
  | .int _ => .int ((2 ^ b.boardSize - 1 : Nat) : Int)

/-- `Board.prototype.isFull`: OR all player boards together and compare with
the all-ones sub-board value. -/
def isFull (b : GB) : Bool :=
  let acc := (List.range b.numberOfPlayerBoards).foldl
    (fun acc i => acc.or (b.getPlayerBoard i)) b.emptyAccBoard
  acc.equals b.fullValue

/-- `Board.prototype.isEmpty`: OR all player boards together and compare with
`0`. -/
def isEmpty (b : GB) : Bool :=
  let acc := (List.range b.numberOfPlayerBoards).foldl
    (fun acc i => acc.or (b.getPlayerBoard i)) b.emptyAccBoard
  acc.equalsNum 0

/-- `Board.prototype.winner`: scan `winningStates` in order; for each state
check player 0 then player 1; else draw when full, else the still-playing
sentinel. -/
def winner (b : GB) : Winner :=
  let p1 := b.getPlayerBoard 0
  let p2 := b.getPlayerBoard 1
  match b.winningStates.find? (fun st => (p1.and st).equals st || (p2.and st).equals st) with
  | some st => if (p1.and st).equals st then .p0 else .p1
  | none => if b.isFull then .draw else .playing

end GB

/-! ## The games' boards -/

/-- The TicTacToe board (src/src/games/tictactoe/board.ts): 3x3, two player
boards, `winningStates = [0x007, 0x038, 0x1C0, 0x049, 0x092, 0x124, 0x111, 0x054]`. -/
def tttWinningStates : List BB :=
  [0x007, 0x038, 0x1C0, 0x049, 0x092, 0x124, 0x111, 0x054].map fun d => .int d

/-- A TicTacToe board whose packed 18-bit state is `d` and whose move stack
is `ms` (the constructor state is `tttBoard 0 []`). -/
def tttBoard (d : Int) (ms : List Nat) : GB :=
  { GB.mk' 3 3 2 0 tttWinningStates with bitBoard := .int d, moves := ms }

/-- The TicTacToe heuristic: `1` when player 0 has won, `-1` when player 1
has won, else `0`. -/
def heuristicTTT (b : GB) : Int :=
  match b.winner with
  | .p0 => 1
  | .p1 => -1
  | _ => 0

/-- The board interface the controller dispatches through: concrete games
may override `heuristic`, `emptyCells` and `makeMove` (Connect 4 does),
while `winner` and `undoLastMove` come from the base class. -/
structure BoardIface where
  winner : GB → Winner
  heuristic : GB → Int
  emptyCells : GB → List Pos
  makeMove : GB → Pos → Nat → GB
  undoLastMove : GB → GB

/-- A board that overrides nothing, with heuristic `h` (TicTacToe's shape). -/
def baseIface (h : GB → Int) : BoardIface :=
  { winner := GB.winner
    heuristic := h
    emptyCells := GB.emptyCells
    makeMove := GB.makeMove
    undoLastMove := GB.undoLastMove }

/-! ## The Connect 4 board (src/src/games/connect4/board.ts) -/

/-- `FULL_BOARD`: ones on the 42 playable bits of one sub-board. -/
def c4FULL : List Nat := [4294967295, 1023]

/-- `HORIZONTAL`: four adjacent cells of row 0. -/
def c4HORIZONTAL : List Nat := [15, 0]

/-- `VERTICAL`: bits 0, 7, 14, 21 (one column, four rows). -/
def c4VERTICAL : List Nat := [2113665, 0]

/-- `LEADING_DIAGONAL`: bits 0, 8, 16, 24. -/
def c4LEADING : List Nat := [16843009, 0]

/-- `NON_LEADING_DIAGONAL`: bits 3, 9, 15, 21. -/
def c4NONLEADING : List Nat := [2130440, 0]

/-- The winning states built by the Connect 4 constructor:
`LongInt.leftShift(pattern, i + 7 * j).and(FULL_BOARD)` pushed in the
constructor's loop order. -/
def c4WinningStates : List BB :=
  (((List.range 4).map fun i => (List.range 6).map fun j =>
      BB.long (longAnd (longLeftShift c4HORIZONTAL (i + 7 * j)) c4FULL)).flatten) ++
  (((List.range 7).map fun i => (List.range 3).map fun j =>
      BB.long (longAnd (longLeftShift c4VERTICAL (i + 7 * j)) c4FULL)).flatten) ++
  (((List.range 4).map fun i => (List.range 3).map fun j =>
      BB.long (longAnd (longLeftShift c4LEADING (i + 7 * j)) c4FULL)).flatten) ++
  (((List.range 4).map fun i => (List.range 3).map fun j =>
      BB.long (longAnd (longLeftShift c4NONLEADING (i + 7 * j)) c4FULL)).flatten)

/-- A freshly constructed Connect 4 board (7 x 6, two player boards; the
backing storage is a 3-word `LongIntBitBoard`). -/
def c4Board : GB := GB.mk' 7 6 2 0 c4WinningStates

/-- `Board.prototype.hasLine(playerId, length, maxGaps)`: counts, over every
start cell and the four directions, the runs reaching `length` cells of the
player (a direction is abandoned once its gap count exceeds `maxGaps`).
Off-board probe cells are ignored, so the probes use integer coordinates. -/
def hasLine (b : GB) (playerId length maxGaps : Nat) : Nat :=
  if Nat.max b.boardWidth b.boardHeight < length then 0
  else
    let dirs : List (Int × Int) := [(1, 0), (0, 1), (1, 1), (1, -1)]
    (List.range b.boardWidth).foldl
      (fun cnt x =>
        (List.range b.boardHeight).foldl
          (fun cnt y =>
            let r := (List.range length).foldl
              (fun st i =>
                (List.range 4).foldl
                  (fun (st : List Nat × List Nat × Nat) j =>
                    let (gaps, lengths, lc) := st
                    if maxGaps < gaps.getD j 0 then st
                    else
                      let d := dirs.getD j (0, 0)
                      let cx : Int := (x : Int) + (i : Int) * d.1
                      let cy : Int := (y : Int) + (i : Int) * d.2
                      let (gaps', lengths') :=
                        if 0 ≤ cx ∧ cx < (b.boardWidth : Int) ∧ 0 ≤ cy ∧
                            cy < (b.boardHeight : Int) then
                          match b.cellOccupier ⟨cx.toNat, cy.toNat⟩ with
                          | none => (gaps.set j (gaps.getD j 0 + 1), lengths)
                          | some pid =>
                            if pid = playerId then
                              (gaps, lengths.set j (lengths.getD j 0 + 1))
                            else (gaps, lengths)
                        else (gaps, lengths)
                      let lc' := if lengths'.getD j 0 = length then lc + 1 else lc
                      (gaps', lengths', lc'))
                  st)
              ([0, 0, 0, 0], [0, 0, 0, 0], cnt)
            r.2.2)
          cnt)
      0

/-- The Connect 4 heuristic: `±1000` on a won board, else a weighted count of
open lines of three and two for each player. -/
def heuristicC4 (b : GB) : Int :=
  match b.winner with
  | .p0 => 1000
  | .p1 => -1000
  | _ =>
    let p0L3 : Int := 3 * (hasLine b 0 3 0 : Int) + 2 * (hasLine b 0 3 1 : Int) +
      (hasLine b 0 3 2 : Int)
    let p1L3 : Int := 3 * (hasLine b 1 3 0 : Int) + 2 * (hasLine b 1 3 1 : Int) +
      (hasLine b 1 3 2 : Int)
    let p0L2 : Int := 3 * (hasLine b 0 2 0 : Int) + 2 * (hasLine b 0 2 1 : Int) +
      (hasLine b 0 2 2 : Int)
    let p1L2 : Int := 3 * (hasLine b 1 2 0 : Int) + 2 * (hasLine b 1 2 1 : Int) +
      (hasLine b 1 2 2 : Int)
    10 * p0L3 + p0L2 - (10 * p1L3 + p1L2)

/-- The Connect 4 `emptyCells` override: one `{x, y: 0}` entry per column
whose top cell is unoccupied. -/
def emptyCellsC4 (b : GB) : List Pos :=
  ((List.range b.boardWidth).map fun x => Pos.mk x 0).filter
    fun c => b.cellOccupier c = none

/-- The Connect 4 `makeMove` override: the piece falls to the lowest
unoccupied row of the chosen column (rows are probed from `5` down to `0`;
if every probe is occupied the original `y` is kept, as in the source where
no `break` fires). -/
def makeMoveC4 (b : GB) (m : Pos) (p : Nat) : GB :=
  let y' := (([5, 4, 3, 2, 1, 0] : List Nat).find?
    fun i => b.cellOccupier ⟨m.x, i⟩ = none).getD m.y
  b.makeMove ⟨m.x, y'⟩ p

/-- The interface of the Connect 4 board: overridden heuristic, `emptyCells`
and `makeMove`; base `winner` and `undoLastMove`. -/
def c4Iface : BoardIface :=
  { winner := GB.winner
    heuristic := heuristicC4
    emptyCells := emptyCellsC4
    makeMove := makeMoveC4
    undoLastMove := GB.undoLastMove }

/-! ## Controller search (src/src/Base/Controller.ts, default export)

Scores are JS numbers; the values that actually occur are integers,
`±Infinity` (the initial `bestMove.score` and the alpha/beta bounds) and in
principle `NaN` (`0 * Infinity`), so scores are modelled by `JNum`. -/

inductive JNum where
  | ninf
  | fin (x : Int)
  | pinf
  | nan
deriving DecidableEq, Repr

namespace JNum

/-- JS multiplication of a finite number by a score. -/
def mulInt (f : Int) : JNum → JNum
  | .fin x => .fin (f * x)
  | .nan => .nan
  | .pinf => if 0 < f then .pinf else if f < 0 then .ninf else .nan
  | .ninf => if 0 < f then .ninf else if f < 0 then .pinf else .nan

/-- `Math.max`. -/
def jmax : JNum → JNum → JNum
  | .nan, _ => .nan
  | _, .nan => .nan
  | .pinf, _ => .pinf
  | _, .pinf => .pinf
  | .ninf, b => b
  | a, .ninf => a
  | .fin x, .fin y => .fin (max x y)

/-- `Math.min`. -/
def jmin : JNum → JNum → JNum
  | .nan, _ => .nan
  | _, .nan => .nan
  | .ninf, _ => .ninf
  | _, .ninf => .ninf
  | .pinf, b => b
  | a, .pinf => a
  | .fin x, .fin y => .fin (min x y)

/-- JS `!==` on numbers: `NaN` is different from everything, including
itself. -/
def jsNeq (a b : JNum) : Bool := a = .nan || b = .nan || a ≠ b

/-- JS `<` on numbers: comparisons involving `NaN` are false. -/
def jlt : JNum → JNum → Bool
  | .nan, _ => false
  | _, .nan => false
  | _, .ninf => false
  | .ninf, _ => true
  | .pinf, _ => false
  | .fin _, .pinf => true
  | .fin x, .fin y => x < y

end JNum

/-- The heuristic leaf value
`board.heuristic * (currentPlayerId === 0 ? 1 : -1)`. -/
def leafScore (I : BoardIface) (cur : Nat) (b : GB) : JNum :=
  .fin (I.heuristic b * (if cur = 0 then 1 else -1))

/-- The body of the `minimax` loop (one empty cell `mv`), parameterised by
the recursive call on children. -/
def mmStep (rec : GB → Bool → Option Pos × JNum) (I : BoardIface) (maxi : Bool)
    (f : Int) (pid : Nat) (st : GB × Option Pos × JNum) (mv : Pos) :
    GB × Option Pos × JNum :=
  let b1 := I.makeMove st.1 mv pid
  let child := rec b1 !maxi
  let score := JNum.mulInt f child.2
  let b2 := I.undoLastMove b1
  let bestScore := if maxi then JNum.jmax score st.2.2 else JNum.jmin score st.2.2
  if JNum.jsNeq bestScore st.2.2 then (b2, some mv, score) else (b2, st.2.1, st.2.2)

/-- `Controller.prototype.minimax(depth, maximisingPlayer)` for a finite
depth.  `cur` is `this.currentPlayerId` (fixed over the recursion), `I` the
board's interface.  The board is threaded through `makeMove`/`undoLastMove`
exactly as the mutate-and-restore loop does; `emptyCells` and its length are
read once before the loop. -/
def minimax (I : BoardIface) (cur : Nat) : Nat → GB → Bool → Option Pos × JNum
  | 0, b, _ => (none, leafScore I cur b)
  | d + 1, b, maxi =>
    if I.winner b ≠ .playing then (none, leafScore I cur b)
    else
      let ec := I.emptyCells b
      let f : Int := 9 - (ec.length : Int)
      let pid := if maxi then cur else (cur + 1) % 2
      let r := ec.foldl (mmStep (minimax I cur d) I maxi f pid)
        (b, none, if maxi then .ninf else .pinf)
      (r.2.1, r.2.2)

/-- The loop state of `alphabeta`: the threaded board, the best move and
score so far, the running `alpha` and `beta`, and whether the loop has
executed `break`. -/
structure ABState where
  board : GB
  bestMove : Option Pos
  bestVal : JNum
  alpha : JNum
  beta : JNum
  broke : Bool

/-- The body of the `alphabeta` loop (one empty cell `mv`), parameterised by
the recursive call on children. -/
def abStep (rec : GB → JNum → JNum → Bool → Option Pos × JNum) (I : BoardIface)
    (maxi : Bool) (f : Int) (pid : Nat) (st : ABState) (mv : Pos) : ABState :=
  if st.broke then st
  else
    let b1 := I.makeMove st.board mv pid
    let child := rec b1 st.alpha st.beta !maxi
    let score := JNum.mulInt f child.2
    let b2 := I.undoLastMove b1
    if maxi then
      let bestScore := JNum.jmax score st.bestVal
      let upd := JNum.jsNeq bestScore st.bestVal
      let bm := if upd then some mv else st.bestMove
      let bv := if upd then score else st.bestVal
      if JNum.jlt st.beta bv then
        { board := b2, bestMove := bm, bestVal := bv, alpha := st.alpha,
          beta := st.beta, broke := true }
      else
        { board := b2, bestMove := bm, bestVal := bv,
          alpha := JNum.jmax st.alpha bestScore, beta := st.beta, broke := false }
    else
      let bestScore := JNum.jmin score st.bestVal
      let upd := JNum.jsNeq bestScore st.bestVal
      let bm := if upd then some mv else st.bestMove
      let bv := if upd then score else st.bestVal
      if JNum.jlt bv st.alpha then
        { board := b2, bestMove := bm, bestVal := bv, alpha := st.alpha,
          beta := st.beta, broke := true }
      else
        { board := b2, bestMove := bm, bestVal := bv, alpha := st.alpha,
          beta := JNum.jmin st.beta bestScore, broke := false }

/-- `Controller.prototype.alphabeta(depth, alpha, beta, maximisingPlayer)`
for a finite depth.  Identical to `minimax` except for the running bounds:
after updating the best move, the loop breaks when `bestMove.score > beta`
(maximising) or `bestMove.score < alpha` (minimising), else tightens the
bound with `bestScore`. -/
def alphabeta (I : BoardIface) (cur : Nat) :
    Nat → GB → JNum → JNum → Bool → Option Pos × JNum
  | 0, b, _, _, _ => (none, leafScore I cur b)
  | d + 1, b, al, be, maxi =>
    if I.winner b ≠ .playing then (none, leafScore I cur b)
    else
      let ec := I.emptyCells b
      let f : Int := 9 - (ec.length : Int)
      let pid := if maxi then cur else (cur + 1) % 2
      let r := ec.foldl (abStep (alphabeta I cur d) I maxi f pid)
        { board := b, bestMove := none, bestVal := if maxi then .ninf else .pinf,
          alpha := al, beta := be, broke := false }
      (r.bestMove, r.bestVal)

/-- Bit `i` of a word list, read through the `i / 32` word and `i % 32`
offset without any masking artifact (the mathematical bit). -/
def lbit (v : List Nat) (i : Nat) : Bool := Nat.testBit (v.getD (i / 32) 0) (i % 32)

/-! ## Claim C10: heap model of the query operations

Mutation in the source lives at the object level: `LongInt` and the two
BitBoard classes either assign into `this` (`setBit`, the in-place `LongInt`
operations) or build `new` objects (the copying statics, `new IntBitBoard`,
`new LongIntBitBoard`).  We model the object store as a heap of `BB` values:
`new` allocates at the end of the heap, an in-place operation writes at the
receiver's address, and the queries become state transformers over this
heap. -/

/-- Read the object at address `a`. -/
def hread (h : List BB) (a : Nat) : BB := h.getD a (.int 0)

/-- Overwrite the object at address `a` (an in-place `LongInt` operation on
its receiver). -/
def hwrite (h : List BB) (a : Nat) (v : BB) : List BB := h.set a v

/-- Allocate a fresh object (`new LongInt` / `new IntBitBoard` /
`new LongIntBitBoard`), returning its address. -/
def halloc (h : List BB) (v : BB) : Nat × List BB := (h.length, h ++ [v])

/-- Word 0 of a backing (`data[0]`). -/
def word0 : BB → Nat
  | .int d => toUint32 d
  | .long v => v.getD 0 0

/-- A `Board` instance whose `bitBoard` lives on the heap at address
`addr`; the other fields are the instance's plain fields. -/
structure HGB where
  heap : List BB
  addr : Nat
  moves : List Nat
  boardWidth : Nat
  boardHeight : Nat
  numberOfPlayerBoards : Nat
  numberOfBoards : Nat
  winningStates : List BB

/-- `getBit` as the source runs it: on an `IntBitBoard` a pure read of the
field; on a `LongIntBitBoard`, `LongInt.rightShift(this._data, bit)`
allocates a fresh copy and shifts it there, `.and(1)` writes that fresh
object in place, and `.data[0]` is read from it. -/
def stGetBit (h : List BB) (a i : Nat) : Nat × List BB :=
  match hread h a with
  | .int d => (intGetBit d i, h)
  | .long v =>
    let q := halloc h (.long (longRightShift v i))
    let h2 := hwrite q.2 q.1 ((hread q.2 q.1).and (.long (matchLen v.length [1])))
    (word0 (hread h2 q.1), h2)

/-- `leftShift` of both BitBoard classes: the copying static shifts a fresh
object, which the result wraps. -/
def stShl (h : List BB) (a n : Nat) : Nat × List BB := halloc h ((hread h a).leftShift n)

/-- `rightShift`, same shape as `stShl`. -/
def stShr (h : List BB) (a n : Nat) : Nat × List BB := halloc h ((hread h a).rightShift n)

/-- `and` with a constant operand: allocates the result. -/
def stAnd (h : List BB) (a : Nat) (r : BB) : Nat × List BB := halloc h ((hread h a).and r)

/-- `or` with another heap object: allocates the result. -/
def stOr (h : List BB) (a b : Nat) : Nat × List BB := halloc h ((hread h a).or (hread h b))

/-- `Board.prototype.getPlayerBoard` over the heap:
`this.bitBoard.leftShift(totalBits - boardSize * (p + 1)).rightShift(totalBits - boardSize)`,
each shift allocating a fresh board. -/
def getPlayerBoardST (b : HGB) (p : Nat) : Nat × HGB :=
  let t := (match hread b.heap b.addr with | .long v => v.length | .int _ => 1) * 32
  let s := b.boardWidth * b.boardHeight
  let q1 := stShl b.heap b.addr (t - s * (p + 1))
  let q2 := stShr q1.2 q1.1 (t - s)
  (q2.1, { b with heap := q2.2 })

/-- The loop of `Board.prototype.cellOccupier` over the remaining player ids:
return the first id whose `getBit(getBitIndex(cell, i))` reads 1 (each read
allocating as `stGetBit` does), else null. -/
def cellOccupierSTAux (b : HGB) (cell : Pos) : List Nat → Option Nat × HGB
  | [] => (none, b)
  | i :: rest =>
    let q := stGetBit b.heap b.addr (b.boardWidth * cell.y + cell.x + b.boardWidth * b.boardHeight * i)
    if q.1 = 1 then (some i, { b with heap := q.2 })
    else cellOccupierSTAux { b with heap := q.2 } cell rest

/-- `Board.prototype.cellOccupier` over the heap. -/
def cellOccupierST (b : HGB) (cell : Pos) : Option Nat × HGB :=
  cellOccupierSTAux b cell (List.range b.numberOfPlayerBoards)

/-- `Board.prototype.moveIsValid` over the heap:
`isValidPosition(move) && cellOccupier(move) === null`, with the
short-circuit of `&&`. -/
def moveIsValidST (b : HGB) (m : Pos) : Bool × HGB :=
  if m.x < b.boardWidth && m.y < b.boardHeight then
    let q := cellOccupierST b m
    (q.1.isNone, q.2)
  else (false, b)

/-- The double loop of `Board.prototype.emptyCells` over the listed cells:
keep those whose `cellOccupier` is null. -/
def emptyCellsSTAux (b : HGB) : List Pos → List Pos × HGB
  | [] => ([], b)
  | c :: rest =>
    let q := cellOccupierST b c
    let r := emptyCellsSTAux q.2 rest
    (if q.1 = none then c :: r.1 else r.1, r.2)

/-- `Board.prototype.emptyCells` over the heap (row-major cell order). -/
def emptyCellsST (b : HGB) : List Pos × HGB :=
  emptyCellsSTAux b (((List.range b.boardHeight).map fun y =>
    (List.range b.boardWidth).map fun x => Pos.mk x y).flatten)

/-- One iteration of the accumulator loops of `isFull` / `isEmpty`:
`acc = acc.or(this.getPlayerBoard(i))` builds the player board (two fresh
allocations) and then allocates the `or` result. -/
def orAccStep (st : Nat × HGB) (i : Nat) : Nat × HGB :=
  let p := getPlayerBoardST st.2 i
  let q := stOr p.2.heap st.1 p.1
  (q.1, { p.2 with heap := q.2 })

/-- `Board.prototype.isFull` over the heap: allocate the zeroed accumulator,
OR all player boards into fresh objects, compare with the all-ones sub-board
value (`equals` is a pure read). -/
def isFullST (b : HGB) : Bool × HGB :=
  let s := b.boardWidth * b.boardHeight
  let q0 := halloc b.heap (match hread b.heap b.addr with
    | .long _ => BB.long (List.replicate ((s + 31) / 32) 0)
    | .int _ => BB.int 0)
  let r := (List.range b.numberOfPlayerBoards).foldl orAccStep (q0.1, { b with heap := q0.2 })
  let fv : BB := match hread r.2.heap r.2.addr with
    | .long _ => BB.long (List.replicate ((s + 31) / 32 - 1) (U32 - 1) ++
        [2 ^ (s - ((s + 31) / 32 - 1) * 32) - 1])
    | .int _ => BB.int ((2 ^ s - 1 : Nat) : Int)
  ((hread r.2.heap r.1).equals fv, r.2)

/-- `Board.prototype.isEmpty` over the heap: same accumulator loop, compared
with `0`. -/
def isEmptyST (b : HGB) : Bool × HGB :=
  let s := b.boardWidth * b.boardHeight
  let q0 := halloc b.heap (match hread b.heap b.addr with
    | .long _ => BB.long (List.replicate ((s + 31) / 32) 0)
    | .int _ => BB.int 0)
  let r := (List.range b.numberOfPlayerBoards).foldl orAccStep (q0.1, { b with heap := q0.2 })
  ((hread r.2.heap r.1).equalsNum 0, r.2)

/-- The scan loop of `Board.prototype.winner` over the heap: for each winning
state, `playerOneBoard.and(state)` allocates and is compared (a pure read);
on a match the loop returns early, else player two is checked the same way. -/
def winnerScanST (b : HGB) (p1 p2 : Nat) : List BB → Option Winner × HGB
  | [] => (none, b)
  | st :: rest =>
    let q1 := stAnd b.heap p1 st
    if (hread q1.2 q1.1).equals st then (some .p0, { b with heap := q1.2 })
    else
      let q2 := stAnd q1.2 p2 st
      if (hread q2.2 q2.1).equals st then (some .p1, { b with heap := q2.2 })
      else winnerScanST { b with heap := q2.2 } p1 p2 rest

/-- `Board.prototype.winner` over the heap: build both player boards, scan
the winning states, and fall back to `isFull`. -/
def winnerST (b : HGB) : Winner × HGB :=
  let q1 := getPlayerBoardST b 0
  let q2 := getPlayerBoardST q1.2 1
  let r := winnerScanST q2.2 q1.1 q2.1 q2.2.winningStates
  match r.1 with
  | some w => (w, r.2)
  | none =>
    let f := isFullST r.2
    (if f.1 then .draw else .playing, f.2)

/-- Heap extension: the new heap keeps every existing object unchanged (all
effects are allocations or writes to fresh addresses). -/
def hext (h h' : List BB) : Prop :=
  h.length ≤ h'.length ∧ ∀ a, a < h.length → hread h' a = hread h a

/-- Board-state extension: all plain fields unchanged and the heap extended. -/
def HExt (b b' : HGB) : Prop :=
  b'.addr = b.addr ∧ b'.moves = b.moves ∧ b'.boardWidth = b.boardWidth ∧
  b'.boardHeight = b.boardHeight ∧
  b'.numberOfPlayerBoards = b.numberOfPlayerBoards ∧
  b'.numberOfBoards = b.numberOfBoards ∧
  b'.winningStates = b.winningStates ∧ hext b.heap b'.heap

/-- A concrete two-word heap board used to instantiate the frame theorem. -/
def hgbExample : HGB :=
  { heap := [.long [5, 9]], addr := 0, moves := [3],
    boardWidth := 3, boardHeight := 2, numberOfPlayerBoards := 2,
    numberOfBoards := 2, winningStates := [.long [7, 0]] }

def BBWF : BB → Prop
  | .int d => toInt32 d = d
  | .long v => LWF v

/-- The stored bit that `setBit i` targets is clear (for the `IntBitBoard`
backing JS masks the index with `& 31`). -/
def bitClearBB : BB → Nat → Prop
  | .int d, i => Nat.testBit (toUint32 d) (i % 32) = false
  | .long v, i => Nat.testBit (v.getD (i / 32) 0) (i % 32) = false

/-- Index `i` is exact for the backing storage: on a multi-word board the
single-bit mask built by `leftShift(i)` holds only bit `i` (true unless
`i % 32 = 0`, `i ≥ 64` and word `i / 32 + 1` exists). -/
def exactBB : BB → Nat → Prop
  | .int _, _ => True
  | .long v, i => i % 32 ≠ 0 ∨ i < 64 ∨ v.length ≤ i / 32 + 1

instance : (bb : BB) → Decidable (BBWF bb)
  | .int d => inferInstanceAs (Decidable (toInt32 d = d))
  | .long v => inferInstanceAs (Decidable (LWF v))

instance : (bb : BB) → (i : Nat) → Decidable (bitClearBB bb i)
  | .int d, i => inferInstanceAs (Decidable (Nat.testBit (toUint32 d) (i % 32) = false))
  | .long v, i => inferInstanceAs (Decidable (Nat.testBit (v.getD (i / 32) 0) (i % 32) = false))

instance : (bb : BB) → (i : Nat) → Decidable (exactBB bb i)
  | .int _, _ => inferInstanceAs (Decidable True)
  | .long v, i =>
    inferInstanceAs (Decidable (i % 32 ≠ 0 ∨ i < 64 ∨ v.length ≤ i / 32 + 1))


/-! ## Claim C9: operation traces and the bits-equal-moves invariant -/

/-- The mathematical bit content of a backing: bit `t` of the stored words
(no read-path masking artifacts). -/
def bbBit : BB → Nat → Bool
  | .int d, t => (toUint32 d).testBit t
  | .long v, t => lbit v t

/-- The declared width of a backing (`wordCount * 32`). -/
def bbBits : BB → Nat
  | .int _ => 32
  | .long v => v.length * 32

/-- Bit `i` of the packed bit board of a `Board`. -/
def GB.bitSetAt (b : GB) (i : Nat) : Bool := bbBit b.bitBoard i

/-- The operations a caller can perform on a board. -/
inductive BOp where
  | make (m : Pos) (p : Nat)
  | undo
deriving DecidableEq, Repr

/-- Run a sequence of operations on a board. -/
def runOps (b : GB) : List BOp → GB
  | [] => b
  | .make m p :: rest => runOps (b.makeMove m p) rest
  | .undo :: rest => runOps b.undoLastMove rest

/-- The caller contract of the claim: each `makeMove` targets a valid,
unoccupied cell with a player id below the player-board count, and each
`undoLastMove` finds a non-empty history. -/
def okOps (b : GB) : List BOp → Bool
  | [] => true
  | .make m p :: rest =>
    b.moveIsValid m && decide (p < b.numberOfPlayerBoards) && okOps (b.makeMove m p) rest
  | .undo :: rest => decide (b.moves ≠ []) && okOps b.undoLastMove rest

/-- The contract strengthened with exactness: no targeted bit index is hit
by the shift-masking bug of the mask construction. -/
def okOpsEx (b : GB) : List BOp → Bool
  | [] => true
  | .make m p :: rest =>
    b.moveIsValid m && decide (p < b.numberOfPlayerBoards) &&
    decide (exactBB b.bitBoard (b.getBitIndex m p)) && okOpsEx (b.makeMove m p) rest
  | .undo :: rest => decide (b.moves ≠ []) && okOpsEx b.undoLastMove rest

/-- The invariant the claim asserts, strengthened to an inductive one: the
bits of the packed board are exactly the stacked move indices, the stack has
no duplicates, every stacked index is exact and in range, the backing is
well formed and the configured sub-boards fit the backing. -/
def GB.invC9 (b : GB) : Prop :=
  (∀ i, bbBit b.bitBoard i = true ↔ i ∈ b.moves) ∧
  b.moves.Nodup ∧
  (∀ i ∈ b.moves, exactBB b.bitBoard i ∧ i < bbBits b.bitBoard) ∧
  BBWF b.bitBoard ∧
  b.boardSize * b.numberOfPlayerBoards ≤ bbBits b.bitBoard

/-! ## Generic lemmas about the word-array operations -/

theorem getD_range_map (L : Nat) (f : Nat → Nat) (j : Nat) :
    ((List.range L).map f).getD j 0 = if j < L then f j else 0 := by
  rcases Nat.lt_or_ge j L with h | h
  · simp [List.getD_eq_getElem?_getD, List.getElem?_map, List.getElem?_range, h]
  · rw [List.getD_eq_getElem?_getD, List.getElem?_eq_none]
    · simp [Nat.not_lt.2 h]
    · simpa using h

theorem wordShl_zero_left (s : Nat) : wordShl 0 s = 0 := by simp [wordShl]

theorem wordShrU_zero_left (s : Nat) : wordShrU 0 s = 0 := by simp [wordShrU]

theorem wordShl_zero_right (a : Nat) : wordShl a 0 = a % U32 := by simp [wordShl]

theorem wordShrU_zero_right (a : Nat) : wordShrU a 0 = a % U32 := by simp [wordShrU]

theorem LWF.getD_lt {v : List Nat} (hv : LWF v) {i : Nat} (h : i < v.length) :
    v.getD i 0 < U32 := by
  rw [List.getD_eq_getElem?_getD, List.getElem?_eq_getElem h]
  exact hv _ (List.getElem_mem h)

theorem LWF.getD_mod {v : List Nat} (hv : LWF v) (i : Nat) :
    v.getD i 0 % U32 = v.getD i 0 := by
  rcases Nat.lt_or_ge i v.length with h | h
  · exact Nat.mod_eq_of_lt (hv.getD_lt h)
  · rw [List.getD_eq_getElem?_getD, List.getElem?_eq_none (by simpa using h)]
    simp

theorem shiftArrayRight_length (v : List Nat) (c fill : Nat) :
    (shiftArrayRight v c fill).length = v.length := by simp [shiftArrayRight]

theorem shiftArrayLeft_length (v : List Nat) (c fill : Nat) :
    (shiftArrayLeft v c fill).length = v.length := by simp [shiftArrayLeft]

/-- The source's `leftShift` agrees with the spec's word-move/bit-shift
description whenever the shift amount is not a multiple of 32 other than 0
and 32 (the excluded amounts hit the `x >>> (32 - 0)` masking bug). -/
theorem longLeftShift_spec (v : List Nat) (n : Nat) (hv : LWF v)
    (hn : n % 32 ≠ 0 ∨ n = 0 ∨ n = 32) :
    longLeftShift v n = specLeftShift v n := by
  rcases hn with hs | rfl | rfl
  · have h0 : n ≠ 0 := by omega
    have h32 : n ≠ 32 := by omega
    rw [longLeftShift, if_neg h0, specLeftShift]
    rcases Nat.lt_or_ge 31 n with hgt | hle
    · rw [if_pos hgt, if_neg h32]
      rw [show (shiftArrayRight v (n / 32) 0).length = v.length from by
        simp [shiftArrayRight]]
      apply List.map_congr_left
      intro i hi
      rw [List.mem_range] at hi
      simp only [shiftArrayRight, getD_range_map]
      have hsub : i - 1 - n / 32 = i - n / 32 - 1 := Nat.sub_right_comm i 1 (n / 32)
      split_ifs <;>
        first
          | rfl
          | omega
          | (rw [hsub])
          | (simp [wordShl_zero_left, wordShrU_zero_left]; done)
    · rw [if_neg (Nat.not_lt.2 hle), if_neg h32]
      have hk : n / 32 = 0 := Nat.div_eq_of_lt (by omega)
      apply List.map_congr_left
      intro i hi
      rw [List.mem_range] at hi
      rw [hk]
      simp only [Nat.sub_zero, Nat.zero_add]
      split_ifs <;>
        first
          | rfl
          | omega
          | (simp [wordShl_zero_left, wordShrU_zero_left]; done)
  · rw [longLeftShift, if_pos rfl, specLeftShift]
    apply List.ext_getElem (by simp)
    intro i h1 h2
    simp only [List.getElem_map, List.getElem_range, Nat.zero_div, Nat.zero_mod,
      Nat.sub_zero]
    rw [if_pos (Nat.zero_le i), if_neg (by simp), wordShl_zero_right]
    rw [List.getD_eq_getElem?_getD, List.getElem?_eq_getElem h1]
    simp [Nat.mod_eq_of_lt (hv _ (List.getElem_mem h1))]
  · have e1 : longLeftShift v 32 = shiftArrayRight v 1 0 := by
      simp [longLeftShift]
    rw [e1, specLeftShift, shiftArrayRight]
    apply List.map_congr_left
    intro i hi
    rw [List.mem_range] at hi
    norm_num
    split_ifs <;>
      first
        | rfl
        | omega
        | (simp [wordShl_zero_left]; done)
        | (rw [wordShl_zero_right, ← List.getD_eq_getElem?_getD]
           exact (hv.getD_mod _).symm)

/-- The source's logical `rightShift` agrees with the spec's description for
the same shift amounts as `leftShift`. -/
theorem longRightShift_spec (v : List Nat) (n : Nat) (hv : LWF v)
    (hn : n % 32 ≠ 0 ∨ n = 0 ∨ n = 32) :
    longRightShift v n = specRightShift v n := by
  rcases hn with hs | rfl | rfl
  · have h0 : n ≠ 0 := by omega
    have h32 : n ≠ 32 := by omega
    rw [longRightShift, if_neg h0, if_neg h32, specRightShift]
    rcases Nat.lt_or_ge 31 n with hgt | hle
    · rw [if_pos hgt, shiftArrayLeft]
      rw [show ((List.range v.length).map fun i =>
          wordShrU (v.getD i 0) (n % 32) |||
            wordShl (v.getD (i + 1) 0) (32 - n % 32)).length = v.length from by simp]
      apply List.map_congr_left
      intro i hi
      rw [List.mem_range] at hi
      rw [if_pos hs]
      simp only [getD_range_map]
      split_ifs with h1
      · rfl
      · have e1 : v.getD (i + n / 32) 0 = 0 := by
          rw [List.getD_eq_getElem?_getD, List.getElem?_eq_none (by omega)]
          rfl
        have e2 : v.getD (i + n / 32 + 1) 0 = 0 := by
          rw [List.getD_eq_getElem?_getD, List.getElem?_eq_none (by omega)]
          rfl
        rw [e1, e2, wordShrU_zero_left, wordShl_zero_left]
        rfl
    · have hk : n / 32 = 0 := Nat.div_eq_of_lt (by omega)
      rw [if_neg (Nat.not_lt.2 hle)]
      apply List.map_congr_left
      intro i hi
      rw [hk]
      simp [hs]
  · rw [longRightShift, if_pos rfl, specRightShift]
    apply List.ext_getElem (by simp)
    intro i h1 h2
    simp only [List.getElem_map, List.getElem_range, Nat.zero_div, Nat.zero_mod,
      Nat.add_zero]
    rw [if_neg (by simp), wordShrU_zero_right]
    rw [List.getD_eq_getElem?_getD, List.getElem?_eq_getElem h1]
    simp [Nat.mod_eq_of_lt (hv _ (List.getElem_mem h1))]
  · have e1 : longRightShift v 32 = shiftArrayLeft v 1 0 := by
      simp [longRightShift]
    rw [e1, specRightShift, shiftArrayLeft]
    apply List.map_congr_left
    intro i hi
    rw [List.mem_range] at hi
    norm_num
    split_ifs with h1
    · rw [wordShrU_zero_right, ← List.getD_eq_getElem?_getD]
      exact (hv.getD_mod _).symm
    · rw [show v[i + 1]?.getD 0 = v.getD (i + 1) 0 from
        (List.getD_eq_getElem?_getD ..).symm]
      rw [show v.getD (i + 1) 0 = 0 from by
        rw [List.getD_eq_getElem?_getD, List.getElem?_eq_none (by omega)]
        rfl]
      rw [wordShrU_zero_left]

/-! ### Single-word (IntBitBoard) shifts -/

theorem toUint32_lt (x : Int) : toUint32 x < U32 := by
  have h1 : 0 ≤ x % (U32 : Int) := Int.emod_nonneg x (by norm_num [U32])
  have h2 : x % (U32 : Int) < (U32 : Int) := Int.emod_lt_of_pos x (by norm_num [U32])
  unfold toUint32
  omega

theorem toUint32_coe (u : Nat) : toUint32 (u : Int) = u % U32 := by
  unfold toUint32
  omega

theorem toUint32_toInt32 (x : Int) : toUint32 (toInt32 x) = toUint32 x := by
  show toUint32 (if toUint32 x < 2147483648 then ((toUint32 x : Nat) : Int)
    else ((toUint32 x : Nat) : Int) - (U32 : Int)) = toUint32 x
  by_cases h : toUint32 x < 2147483648
  · rw [if_pos h, toUint32_coe, Nat.mod_eq_of_lt (toUint32_lt x)]
  · rw [if_neg h]
    have hu := toUint32_lt x
    show ((((toUint32 x : Nat) : Int) - (U32 : Int)) % (U32 : Int)).toNat = toUint32 x
    generalize toUint32 x = u at hu ⊢
    unfold U32 at *
    omega

theorem wordShl_lt (a n : Nat) : wordShl a n < U32 :=
  Nat.mod_lt _ (by norm_num [U32])

theorem wordShrU_lt (a n : Nat) : wordShrU a n < U32 :=
  Nat.lt_of_le_of_lt (Nat.div_le_self _ _) (Nat.mod_lt _ (by norm_num [U32]))

/-- The single-word shifts agree with the spec description for amounts below
the word size (JS masks the shift count with `& 31`, so larger amounts do
not drop the word as the spec requires). -/
theorem intShift_spec (d : Int) (n : Nat) (_hn : n < 32) :
    toUint32 (jsShl d n) = wordShl (toUint32 d) n ∧
    toUint32 (jsShrU d n) = wordShrU (toUint32 d) n := by
  constructor
  · rw [jsShl, toUint32_toInt32, toUint32_coe, Nat.mod_eq_of_lt (wordShl_lt _ _)]
  · rw [jsShrU, toUint32_coe, Nat.mod_eq_of_lt (wordShrU_lt _ _)]

/-- C4.  The word-move/bit-shift decomposition claimed for the shifts fails
on the code for shift amounts that are multiples of 32 beyond 32: the bit
loop still runs and `x >>> (32 - 0)` is `x >>> 0` under JS shift masking, so
adjacent words are OR-ed together.  Concretely, a 4-word vector shifted left
by 64 also copies word 0 into word 3 (and symmetrically for the right
shift). -/
theorem claim_C4_counterexample :
    LWF [1, 0, 0, 0] ∧
    longLeftShift [1, 0, 0, 0] 64 = [0, 0, 1, 1] ∧
    specLeftShift [1, 0, 0, 0] 64 = [0, 0, 1, 0] ∧
    longRightShift [0, 0, 0, 1] 64 = [1, 1, 0, 0] ∧
    specRightShift [0, 0, 0, 1] 64 = [0, 1, 0, 0] := by
  constructor
  · decide
  refine ⟨by decide, by decide, by decide, by decide⟩

/-- C4 (amended): for every well-formed vector, `leftShift(n)` and logical
`rightShift(n)` realise the spec's word-move-then-bit-shift-with-carry
description (bits dropped past the width, zeros shifted in) for every shift
amount `n` with `n % 32 ≠ 0` as well as for `n = 0` and `n = 32`; the
single-word shifts realise it for `n < 32`. -/
theorem claim_C4_amended :
    (∀ (v : List Nat) (n : Nat), LWF v → (n % 32 ≠ 0 ∨ n = 0 ∨ n = 32) →
        longLeftShift v n = specLeftShift v n ∧
        longRightShift v n = specRightShift v n) ∧
    (∀ (d : Int) (n : Nat), n < 32 →
        toUint32 (jsShl d n) = wordShl (toUint32 d) n ∧
        toUint32 (jsShrU d n) = wordShrU (toUint32 d) n) :=
  ⟨fun v n hv hn => ⟨longLeftShift_spec v n hv hn, longRightShift_spec v n hv hn⟩,
   fun d n hn => intShift_spec d n hn⟩

/-- Witness for `claim_C4_amended` at concrete inputs. -/
theorem claim_C4_amended_witness :
    longLeftShift [5, 7] 33 = specLeftShift [5, 7] 33 ∧
    toUint32 (jsShl 3 5) = wordShl (toUint32 3) 5 :=
  ⟨(claim_C4_amended.1 [5, 7] 33 (by decide) (by decide)).1,
   (claim_C4_amended.2 3 5 (by decide)).1⟩

theorem lorLtTwoPow {m k n : Nat} (h1 : m < 2 ^ n) (h2 : k < 2 ^ n) : m ||| k < 2 ^ n := by
  have he : m ||| k = (m ||| k) % 2 ^ n := by
    apply Nat.eq_of_testBit_eq
    intro i
    rw [Nat.testBit_mod_two_pow, Nat.testBit_lor]
    rcases Nat.lt_or_ge i n with h | h
    · simp [h]
    · rw [Nat.testBit_eq_false_of_lt (lt_of_lt_of_le h1 (Nat.pow_le_pow_right (by norm_num) h)),
        Nat.testBit_eq_false_of_lt (lt_of_lt_of_le h2 (Nat.pow_le_pow_right (by norm_num) h))]
      simp [Nat.not_lt.2 h]
  rw [he]
  exact Nat.mod_lt _ (Nat.pos_pow_of_pos n (by norm_num))

theorem U32_eq_pow : U32 = 2 ^ 32 := by norm_num [U32]

/-- The single-bit word `(x ||| 2^s) &&& ~(2^s)` drops back to `x` when bit
`s` of `x` was clear. -/
theorem lor_and_complement {x s : Nat} (hx : x < U32) (hs : s < 32)
    (hbit : x.testBit s = false) :
    (x ||| 2 ^ s) &&& (2 ^ s ^^^ (U32 - 1)) = x := by
  apply Nat.eq_of_testBit_eq
  intro t
  rw [Nat.testBit_land, Nat.testBit_lor, Nat.testBit_xor, Nat.testBit_two_pow,
    show U32 - 1 = 2 ^ 32 - 1 by norm_num [U32], Nat.testBit_two_pow_sub_one]
  by_cases hts : s = t
  · subst hts
    simp [hbit, hs]
  · rcases Nat.lt_or_ge t 32 with ht | ht
    · simp [hts, ht]
    · rw [Nat.testBit_eq_false_of_lt
        (lt_of_lt_of_le (U32_eq_pow ▸ hx) (Nat.pow_le_pow_right (by norm_num) ht))]
      simp [hts, Nat.not_lt.2 ht]

theorem wordShrU_32 (a : Nat) : wordShrU a 32 = a % U32 := by
  simp [wordShrU]

theorem wordShrU_one_small {t : Nat} (h1 : 1 ≤ t) (h2 : t ≤ 31) : wordShrU 1 t = 0 := by
  rw [wordShrU, Nat.mod_eq_of_lt (by omega : t < 32),
    Nat.mod_eq_of_lt (by norm_num [U32] : (1 : Nat) < U32)]
  exact Nat.div_eq_of_lt (Nat.one_lt_two_pow (by omega))

theorem wordShl_one {s : Nat} (h : s < 32) : wordShl 1 s = 2 ^ s := by
  rw [wordShl, Nat.mod_eq_of_lt (by norm_num [U32] : (1 : Nat) < U32),
    Nat.mod_eq_of_lt (by omega : s < 32), Nat.one_mul]
  exact Nat.mod_eq_of_lt (U32_eq_pow ▸ Nat.pow_lt_pow_right (by norm_num) h)

/-- The single-bit mask `getMatchingLongInt(data, 1).leftShift(i)` used by
`setBit`/`clearBit` on a `LongIntBitBoard` of `L` words. -/
def maskOne (L i : Nat) : List Nat := longLeftShift (matchLen L [1]) i

theorem matchLen_one_getD (L j : Nat) :
    (matchLen L [1]).getD j 0 = if j = 0 ∧ 0 < L then 1 else 0 := by
  rw [matchLen, getD_range_map]
  rcases Nat.eq_zero_or_pos j with rfl | hj
  · split_ifs <;> simp_all
  · have h : ([1] : List Nat).getD j 0 = 0 := by
      rw [List.getD_eq_getElem?_getD, List.getElem?_eq_none (by simp; omega)]
      rfl
    split_ifs <;> simp_all <;> omega

/-- Under the exactness condition (`i % 32 ≠ 0`, or `i < 64`, or the target
word is at or beyond the top word) the mask holds exactly bit `i`: word
`i / 32` is `2 ^ (i % 32)` and every other word is zero. -/
theorem maskOne_getD (L i : Nat)
    (hex : i % 32 ≠ 0 ∨ i < 64 ∨ L ≤ i / 32 + 1) (j : Nat) :
    (maskOne L i).getD j 0 = if j = i / 32 ∧ j < L then 2 ^ (i % 32) else 0 := by
  rcases Nat.eq_zero_or_pos i with rfl | hipos
  · rw [maskOne, longLeftShift, if_pos rfl, matchLen_one_getD]
    norm_num
    split_ifs <;> simp_all
  by_cases hi32 : i = 32
  · subst hi32
    have e1 : maskOne L 32 = shiftArrayRight (matchLen L [1]) 1 0 := by
      simp [maskOne, longLeftShift]
    rw [e1, shiftArrayRight]
    rw [show (matchLen L [1]).length = L from by simp [matchLen]]
    rw [getD_range_map, matchLen_one_getD]
    have h232 : (2 : Nat) ^ (32 % 32) = 1 := by norm_num
    rw [h232]
    have h132 : (32 : Nat) / 32 = 1 := by norm_num
    rw [h132]
    split_ifs <;> omega
  · have hL : (matchLen L [1]).length = L := by simp [matchLen]
    have hv1 : ∀ t, ((if 31 < i then shiftArrayRight (matchLen L [1]) (i / 32) 0
        else matchLen L [1]) : List Nat).getD t 0
        = if t = i / 32 ∧ t < L then 1 else 0 := by
      intro t
      rcases Nat.lt_or_ge 31 i with hgt | hle
      · rw [if_pos hgt, shiftArrayRight, hL, getD_range_map, matchLen_one_getD]
        have hk : 1 ≤ i / 32 := by omega
        split_ifs <;> omega
      · rw [if_neg (by omega), matchLen_one_getD]
        have hk : i / 32 = 0 := by omega
        split_ifs <;> omega
    rw [maskOne, longLeftShift, if_neg (by omega), if_neg hi32]
    rw [show (if 31 < i then shiftArrayRight (matchLen L [1]) (i / 32) 0
        else matchLen L [1]).length = L from by
      rcases Nat.lt_or_ge 31 i with hgt | hle
      · rw [if_pos hgt, shiftArrayRight_length, hL]
      · rw [if_neg (by omega), hL]]
    rw [getD_range_map]
    rcases Nat.lt_or_ge j L with hj | hj
    swap
    · rw [if_neg (by omega), if_neg (by omega)]
    rw [if_pos hj]
    simp only [hv1]
    by_cases hs : i % 32 = 0
    · have hLk : L ≤ i / 32 + 1 := by
        rcases hex with h | h | h <;> omega
      rw [hs, wordShl_zero_right]
      have hcar : (if j = 0 then 0
          else wordShrU (if j - 1 = i / 32 ∧ j - 1 < L then 1 else 0) (32 - 0)) = 0 := by
        split_ifs with h1 h2
        · rfl
        · omega
        · rw [wordShrU_32]
          simp
      rw [hcar, pow_zero]
      split_ifs <;> simp [U32]
    · have hslt : i % 32 < 32 := Nat.mod_lt _ (by norm_num)
      have hcar : (if j = 0 then 0
          else wordShrU (if j - 1 = i / 32 ∧ j - 1 < L then 1 else 0) (32 - i % 32)) = 0 := by
        split_ifs with h1 h2
        · rfl
        · exact wordShrU_one_small (by omega) (by omega)
        · exact wordShrU_zero_left _
      rw [hcar]
      split_ifs with h1
      · rw [wordShl_one hslt]
        simp
      · rw [wordShl_zero_left]
        simp

/-! ## Claim C2: the winner scan -/

/-- The winner scan as the corrected claim describes it: walk `winningStates`
in construction order and, for each state, check player 0's sub-board before
player 1's; the first match decides.  With no match the result is the given
no-winner outcome. -/
def winnerScan (p1b p2b : BB) : List BB → Winner → Winner
  | [], dres => dres
  | st :: rest, dres =>
    if (p1b.and st).equals st then .p0
    else if (p2b.and st).equals st then .p1
    else winnerScan p1b p2b rest dres

theorem find?_winner_eq_scan (p1b p2b : BB) (ws : List BB) (dres : Winner) :
    (match ws.find? (fun st => (p1b.and st).equals st || (p2b.and st).equals st) with
     | some st => if (p1b.and st).equals st then Winner.p0 else Winner.p1
     | none => dres) = winnerScan p1b p2b ws dres := by
  induction ws with
  | nil => rfl
  | cons st rest ih =>
    by_cases h0 : (p1b.and st).equals st = true
    · rw [List.find?_cons_of_pos _ (by simp [h0]), winnerScan]
      simp [h0]
    · by_cases h1 : (p2b.and st).equals st = true
      · rw [List.find?_cons_of_pos _ (by simp [h1]), winnerScan]
        simp [h0, h1]
      · rw [List.find?_cons_of_neg _ (by simp [h0, h1]), winnerScan]
        simp only [h0, h1, if_false]
        exact ih

/-- C2 (corrected): the claim's player-major priority is wrong — the code
scans `winningStates` outermost and the two players within each state.  On a
board where player 1 matches an earlier winning state than player 0, the
winner is 1 even though player 0's sub-board contains a winning mask.  The
board below is the 3x3 TicTacToe board with player 0 holding row 2
(mask `0x1C0`, the third entry of `winningStates`) and player 1 holding row 0
(mask `0x007`, the first entry). -/
theorem claim_C2_counterexample :
    ((((tttBoard 4032 []).getPlayerBoard 0).and (.int 448)).equals (.int 448) = true) ∧
    (.int 448) ∈ (tttBoard 4032 []).winningStates ∧
    (tttBoard 4032 []).winner = .p1 := by
  refine ⟨by decide, by decide, by decide⟩

/-- C2 (amended): `winner` returns the decision of the state-major scan —
the first state in `winningStates` order matched by either player decides,
with player 0 checked before player 1 on each state; if no state matches
either player the result is `null` (draw) when the board is full and the
still-playing sentinel otherwise. -/
theorem claim_C2_amended (b : GB) :
    b.winner =
      winnerScan (b.getPlayerBoard 0) (b.getPlayerBoard 1) b.winningStates
        (if b.isFull then .draw else .playing) := by
  unfold GB.winner
  exact find?_winner_eq_scan _ _ _ _

/-! ## Claim C8: undoLastMove error behavior -/

/-- C8 (confirmed): `undoLastMove` throws exactly when the move stack is
empty, and in that case the board (packed bits and stack) is unchanged —
`pop` on an empty array returns `undefined` without modifying it and the
throw happens before any bit is cleared.  With a non-empty stack no error is
raised. -/
theorem claim_C8 (b : GB) :
    ((b.undoLastMoveE).1 ≠ none ↔ b.moves = []) ∧
    (b.moves = [] → (b.undoLastMoveE).2 = b) := by
  constructor
  · cases hm : b.moves with
    | nil => simp [GB.undoLastMoveE, hm]
    | cons m rest => simp [GB.undoLastMoveE, hm]
  · intro hm
    simp [GB.undoLastMoveE, hm]

/-- Witness for `claim_C8` on a concrete empty-stack board. -/
theorem claim_C8_witness :
    ((tttBoard 0 []).undoLastMoveE).1 ≠ none ∧
    ((tttBoard 0 []).undoLastMoveE).2 = tttBoard 0 [] :=
  ⟨(claim_C8 (tttBoard 0 [])).1.2 rfl, (claim_C8 (tttBoard 0 [])).2 rfl⟩

theorem xorLtTwoPow {m k n : Nat} (h1 : m < 2 ^ n) (h2 : k < 2 ^ n) : m ^^^ k < 2 ^ n := by
  have he : m ^^^ k = (m ^^^ k) % 2 ^ n := by
    apply Nat.eq_of_testBit_eq
    intro i
    rw [Nat.testBit_mod_two_pow, Nat.testBit_xor]
    rcases Nat.lt_or_ge i n with h | h
    · simp [h]
    · rw [Nat.testBit_eq_false_of_lt (lt_of_lt_of_le h1 (Nat.pow_le_pow_right (by norm_num) h)),
        Nat.testBit_eq_false_of_lt (lt_of_lt_of_le h2 (Nat.pow_le_pow_right (by norm_num) h))]
      simp [Nat.not_lt.2 h]
  rw [he]
  exact Nat.mod_lt _ (Nat.pos_pow_of_pos n (by norm_num))

theorem land_ones (x : Nat) : x &&& (2 ^ 32 - 1) = x % 2 ^ 32 := by
  apply Nat.eq_of_testBit_eq
  intro t
  rw [Nat.testBit_land, Nat.testBit_two_pow_sub_one, Nat.testBit_mod_two_pow]
  exact Bool.and_comm _ _

theorem matchLen_getD (L : Nat) (v : List Nat) (j : Nat) :
    (matchLen L v).getD j 0 = if j < L then v.getD j 0 else 0 := by
  rw [matchLen, getD_range_map]

theorem matchLen_length (L : Nat) (v : List Nat) : (matchLen L v).length = L := by
  simp [matchLen]

theorem longOr_length (a b : List Nat) : (longOr a b).length = a.length := by
  simp [longOr]

theorem longAnd_length (a b : List Nat) : (longAnd a b).length = a.length := by
  simp [longAnd]

theorem longNot_length (a : List Nat) : (longNot a).length = a.length := by
  simp [longNot]

theorem longLeftShift_length (v : List Nat) (n : Nat) :
    (longLeftShift v n).length = v.length := by
  rw [longLeftShift]
  split_ifs <;> simp [shiftArrayRight]

theorem maskOne_length (L i : Nat) : (maskOne L i).length = L := by
  rw [maskOne, longLeftShift_length, matchLen_length]

theorem longOr_getD (a b : List Nat) (j : Nat) :
    (longOr a b).getD j 0 = if j < a.length then a.getD j 0 ||| b.getD j 0 else 0 := by
  rw [longOr, getD_range_map]
  split_ifs with h
  · rw [matchLen_getD, if_pos h]
  · rfl

theorem longAnd_getD (a b : List Nat) (j : Nat) :
    (longAnd a b).getD j 0 = if j < a.length then a.getD j 0 &&& b.getD j 0 else 0 := by
  rw [longAnd, getD_range_map]
  split_ifs with h
  · rw [matchLen_getD, if_pos h]
  · rfl

theorem longNot_getD (a : List Nat) (j : Nat) :
    (longNot a).getD j 0 = if j < a.length then wordNot (a.getD j 0) else 0 := by
  rcases Nat.lt_or_ge j a.length with h | h
  · rw [if_pos h, longNot, List.getD_eq_getElem?_getD,
      List.getElem?_eq_getElem (by simpa [longNot] using h), List.getElem_map]
    rw [List.getD_eq_getElem?_getD, List.getElem?_eq_getElem h]
    rfl
  · rw [if_neg (by omega), longNot, List.getD_eq_getElem?_getD,
      List.getElem?_eq_none (by simpa [longNot] using h)]
    rfl

/-- Clearing the bit that `setBit` just set restores a well-formed word list,
provided the bit was clear beforehand and its index is exact (not hit by the
shift-masking bug). -/
theorem long_set_clear_restore (v : List Nat) (i : Nat) (hv : LWF v)
    (hex : i % 32 ≠ 0 ∨ i < 64 ∨ v.length ≤ i / 32 + 1)
    (hbit : Nat.testBit (v.getD (i / 32) 0) (i % 32) = false) :
    longAnd (longOr v (maskOne v.length i)) (longNot (maskOne v.length i)) = v := by
  have hs : i % 32 < 32 := Nat.mod_lt _ (by norm_num)
  have hpow : 2 ^ (i % 32) < U32 := by
    rw [U32_eq_pow]
    exact Nat.pow_lt_pow_right (by norm_num) hs
  apply List.ext_getElem (by rw [longAnd_length, longOr_length])
  intro j h1 h2
  have h1' : j < v.length := h2
  rw [show (longAnd (longOr v (maskOne v.length i)) (longNot (maskOne v.length i)))[j] =
      (longAnd (longOr v (maskOne v.length i)) (longNot (maskOne v.length i))).getD j 0 from by
    rw [List.getD_eq_getElem?_getD, List.getElem?_eq_getElem h1]
    rfl]
  rw [show v[j] = v.getD j 0 from by
    rw [List.getD_eq_getElem?_getD, List.getElem?_eq_getElem h1']
    rfl]
  rw [longAnd_getD, if_pos (by rwa [longOr_length]), longOr_getD, if_pos h1',
    longNot_getD, if_pos (by rwa [maskOne_length]), maskOne_getD _ _ hex]
  by_cases hk : j = i / 32
  · subst hk
    rw [if_pos ⟨rfl, h1'⟩, wordNot, Nat.mod_eq_of_lt hpow]
    exact lor_and_complement (hv.getD_lt h1') hs hbit
  · rw [if_neg (by simp [hk]), Nat.or_zero]
    rw [show wordNot 0 = 2 ^ 32 - 1 from by simp [wordNot, U32]]
    rw [land_ones]
    exact Nat.mod_eq_of_lt (U32_eq_pow ▸ hv.getD_lt h1')

theorem toUint32_lt_pow (x : Int) : toUint32 x < 2 ^ 32 := U32_eq_pow ▸ toUint32_lt x

theorem toInt32_congr {x y : Int} (h : toUint32 x = toUint32 y) : toInt32 x = toInt32 y := by
  unfold toInt32
  rw [h]

theorem wordShl_one' (i : Nat) : wordShl 1 i = 2 ^ (i % 32) := by
  rw [wordShl, Nat.mod_eq_of_lt (by norm_num [U32] : (1 : Nat) < U32), Nat.one_mul]
  exact Nat.mod_eq_of_lt (by
    rw [U32_eq_pow]
    exact Nat.pow_lt_pow_right (by norm_num) (Nat.mod_lt _ (by norm_num)))

/-- Clearing the bit that `setBit` just set restores a canonical `IntBitBoard`
value, provided bit `i & 31` was clear beforehand. -/
theorem int_set_clear_restore (d : Int) (i : Nat) (hd : toInt32 d = d)
    (hbit : Nat.testBit (toUint32 d) (i % 32) = false) :
    intClearBit (intSetBit d i) i = d := by
  have hs : i % 32 < 32 := Nat.mod_lt _ (by norm_num)
  have hpow : 2 ^ (i % 32) < U32 := by
    rw [U32_eq_pow]
    exact Nat.pow_lt_pow_right (by norm_num) hs
  have hm : toUint32 (jsShl 1 i) = 2 ^ (i % 32) := by
    rw [jsShl, toUint32_toInt32, toUint32_coe,
      show toUint32 1 = 1 from by norm_num [toUint32, U32], wordShl_one',
      Nat.mod_eq_of_lt hpow]
  have hu : toUint32 (intSetBit d i) = toUint32 d ||| 2 ^ (i % 32) := by
    rw [intSetBit, jsOr, toUint32_toInt32, toUint32_coe, hm,
      Nat.mod_eq_of_lt (U32_eq_pow ▸ lorLtTwoPow (toUint32_lt_pow d) (U32_eq_pow ▸ hpow))]
  have hnot : toUint32 (jsNot (jsShl 1 i)) = 2 ^ (i % 32) ^^^ (U32 - 1) := by
    rw [jsNot, toUint32_toInt32, toUint32_coe, hm, wordNot, Nat.mod_eq_of_lt hpow]
    refine Nat.mod_eq_of_lt ?_
    rw [U32_eq_pow]
    exact xorLtTwoPow (U32_eq_pow ▸ hpow) (by norm_num)
  rw [intClearBit, jsAnd, hu, hnot,
    lor_and_complement (toUint32_lt d) hs hbit]
  calc toInt32 ((toUint32 d : Nat) : Int)
      = toInt32 d := toInt32_congr (by rw [toUint32_coe, Nat.mod_eq_of_lt (toUint32_lt d)])
    _ = d := hd

/-- Well-formed backing storage: an `IntBitBoard` value is a canonical signed
32-bit number (anything `setBit`/`clearBit` produce), a `LongIntBitBoard`
holds 32-bit words (the `Uint32Array` invariant). -/
theorem bb_set_clear_restore (bb : BB) (i : Nat) (h1 : BBWF bb)
    (h2 : bitClearBB bb i) (h3 : exactBB bb i) :
    (bb.setBit i).clearBit i = bb := by
  cases bb with
  | int d =>
    show BB.int (intClearBit (intSetBit d i) i) = BB.int d
    rw [int_set_clear_restore d i h1 h2]
  | long v =>
    show BB.long (longAnd (longOr v (maskOne v.length i))
      (longNot (maskOne (longOr v (maskOne v.length i)).length i))) = BB.long v
    rw [longOr_length, long_set_clear_restore v i h1 h3 h2]

/-- C3 (corrected): with no precondition beyond in-bounds coordinates the
round trip is not the identity — `makeMove` on a cell already occupied by
the same player sets an already-set bit, and `undoLastMove` then clears it,
erasing the pre-existing piece.  On the TicTacToe board with player 0 on
cell (0,0), `makeMove((0,0), 0); undoLastMove()` leaves (0,0) empty. -/
theorem claim_C3_counterexample :
    (tttBoard 1 []).isValidPosition ⟨0, 0⟩ = true ∧
    (tttBoard 1 []).cellOccupier ⟨0, 0⟩ = some 0 ∧
    (((tttBoard 1 []).makeMove ⟨0, 0⟩ 0).undoLastMove).cellOccupier ⟨0, 0⟩ = none := by
  refine ⟨by decide, by decide, by decide⟩

/-- C3 (amended): `makeMove(m, p)` immediately followed by `undoLastMove()`
restores `isEmpty` and every `cellOccupier` value (indeed the whole board)
provided the targeted bit is not already set and, on a multi-word board, the
bit index is not hit by the shift-masking bug (`i % 32 ≠ 0`, or `i < 64`, or
the index lands in or beyond the top word). -/
theorem claim_C3_amended (b : GB) (m : Pos) (p : Nat)
    (_hpos : b.isValidPosition m = true)
    (hwf : BBWF b.bitBoard)
    (hclear : bitClearBB b.bitBoard (b.getBitIndex m p))
    (hex : exactBB b.bitBoard (b.getBitIndex m p)) :
    ((b.makeMove m p).undoLastMove).isEmpty = b.isEmpty ∧
    ∀ c, ((b.makeMove m p).undoLastMove).cellOccupier c = b.cellOccupier c := by
  have e : (b.makeMove m p).undoLastMove =
      GB.mk b.boardWidth b.boardHeight b.numberOfPlayerBoards b.numberOfBoards
        ((b.bitBoard.setBit (b.getBitIndex m p)).clearBit (b.getBitIndex m p))
        b.moves b.winningStates := rfl
  have hb : (b.makeMove m p).undoLastMove = b := by
    rw [e, bb_set_clear_restore _ _ hwf hclear hex]
  rw [hb]
  exact ⟨rfl, fun _ => rfl⟩

/-- Witness for `claim_C3_amended` on the empty TicTacToe board at (1,1). -/
theorem claim_C3_amended_witness :
    (((tttBoard 0 []).makeMove ⟨1, 1⟩ 0).undoLastMove).isEmpty = (tttBoard 0 []).isEmpty ∧
    (((tttBoard 0 []).makeMove ⟨1, 1⟩ 0).undoLastMove).cellOccupier ⟨1, 1⟩ =
      (tttBoard 0 []).cellOccupier ⟨1, 1⟩ :=
  ⟨(claim_C3_amended (tttBoard 0 []) ⟨1, 1⟩ 0 (by decide) (by decide) (by decide)
      (by decide)).1,
   (claim_C3_amended (tttBoard 0 []) ⟨1, 1⟩ 0 (by decide) (by decide) (by decide)
      (by decide)).2 ⟨1, 1⟩⟩

/-- C5.  `arithmeticRightShift` fills vacated whole words with
`0xFFFFFFFF` unconditionally (`shiftArrayLeft(count, ~0 >>> 0)`), even when
the top word's sign bit is 0.  On the two-word vector `[0, 0]` (value `0`,
sign bit clear) a shift by 32 must leave the vector all-zero, but the code
produces an all-ones top word. -/
theorem claim_C5_eval :
    longArithShr [0, 0] 32 = [0, 4294967295] ∧
    longArithShr [0, 0] 32 ≠ [0, 0] := by
  constructor
  · decide
  · decide

/-! ## Claim C6: LongInt equals -/

theorem getD_succ_tail (v : List Nat) (i : Nat) :
    v.getD (i + 1) 0 = v.tail.getD i 0 := by
  cases v <;> simp [List.getD_cons_succ]

theorem matchLen_succ (L : Nat) (v : List Nat) :
    matchLen (L + 1) v = v.getD 0 0 :: matchLen L v.tail := by
  rw [matchLen, List.range_succ_eq_map, List.map_cons, List.map_map]
  congr 1
  rw [matchLen]
  apply List.map_congr_left
  intro i _
  exact getD_succ_tail v i

theorem longVal_matchLen (L : Nat) (v : List Nat) (h : v.length ≤ L) :
    longVal (matchLen L v) = longVal v := by
  induction L generalizing v with
  | zero =>
    have : v = [] := List.eq_nil_of_length_eq_zero (by omega)
    subst this
    rfl
  | succ L ih =>
    rw [matchLen_succ]
    cases v with
    | nil =>
      show (0 : Nat) % U32 + U32 * longVal (matchLen L ([] : List Nat).tail) = 0
      rw [show ([] : List Nat).tail = [] from rfl, ih [] (by simp)]
      rfl
    | cons w ws =>
      show w % U32 + U32 * longVal (matchLen L ws) = w % U32 + U32 * longVal ws
      rw [ih ws (by simpa using h)]

theorem longVal_inj : ∀ (a b : List Nat), LWF a → LWF b → a.length = b.length →
    longVal a = longVal b → a = b
  | [], [], _, _, _, _ => rfl
  | [], _ :: _, _, _, hl, _ => by simp at hl
  | _ :: _, [], _, _, hl, _ => by simp at hl
  | w :: ws, u :: us, ha, hb, hl, hv => by
    have hw : w < U32 := ha w (by simp)
    have hu : u < U32 := hb u (by simp)
    have hww : w % U32 = w := Nat.mod_eq_of_lt hw
    have huu : u % U32 = u := Nat.mod_eq_of_lt hu
    have hv' : w % U32 + U32 * longVal ws = u % U32 + U32 * longVal us := hv
    rw [hww, huu] at hv'
    have h1 : w = u := by
      have := congrArg (· % U32) hv'
      simpa [Nat.add_mul_mod_self_left, Nat.mod_eq_of_lt hw, Nat.mod_eq_of_lt hu] using this
    have h2 : longVal ws = longVal us := by
      subst h1
      have : U32 * longVal ws = U32 * longVal us := by omega
      exact Nat.eq_of_mul_eq_mul_left (by norm_num [U32]) this
    rw [h1, longVal_inj ws us (fun x hx => ha x (by simp [hx]))
      (fun x hx => hb x (by simp [hx])) (by simpa using hl) h2]

theorem LWF_matchLen (L : Nat) (v : List Nat) (hv : LWF v) : LWF (matchLen L v) := by
  intro w hw
  rw [matchLen] at hw
  rcases List.mem_map.1 hw with ⟨i, _, rfl⟩
  rcases Nat.lt_or_ge i v.length with h | h
  · exact hv.getD_lt h
  · rw [List.getD_eq_getElem?_getD, List.getElem?_eq_none (by simpa using h)]
    norm_num [U32]

/-- C6 (confirmed): `equals` holds exactly when the two word lists denote the
same unsigned integer (both are zero-extended to the longer length before the
word-by-word comparison), and it is symmetric. -/
theorem claim_C6 (a b : List Nat) (ha : LWF a) (hb : LWF b) :
    (longEquals a b = true ↔ longVal a = longVal b) ∧
    longEquals a b = longEquals b a := by
  have hL1 : ∀ (x y : List Nat),
      x.length ≤ (if y.length < x.length then x.length else y.length) := by
    intro x y
    split_ifs <;> omega
  have hL2 : ∀ (x y : List Nat),
      y.length ≤ (if y.length < x.length then x.length else y.length) := by
    intro x y
    split_ifs <;> omega
  have hLsym : ∀ (x y : List Nat),
      ((if y.length < x.length then x.length else y.length) : Nat) =
        (if x.length < y.length then y.length else x.length) := by
    intro x y
    split_ifs <;> omega
  constructor
  · rw [longEquals]
    show (decide (matchLen _ a = matchLen _ b) = true) ↔ _
    rw [decide_eq_true_iff]
    constructor
    · intro h
      have := congrArg longVal h
      rwa [longVal_matchLen _ a (hL1 a b), longVal_matchLen _ b (hL2 a b)] at this
    · intro h
      apply longVal_inj _ _ (LWF_matchLen _ _ ha) (LWF_matchLen _ _ hb)
        (by rw [matchLen_length, matchLen_length])
      rw [longVal_matchLen _ a (hL1 a b), longVal_matchLen _ b (hL2 a b)]
      exact h
  · rw [longEquals, longEquals]
    show decide _ = decide _
    rw [hLsym a b]
    exact decide_eq_decide.2 ⟨Eq.symm, Eq.symm⟩

/-- Witness for `claim_C6`: `[7, 0]` and `[7]` have different word counts but
equal value, and compare equal both ways. -/
theorem claim_C6_witness :
    (longEquals [7, 0] [7] = true ↔ longVal [7, 0] = longVal [7]) ∧
    longEquals [7, 0] [7] = longEquals [7] [7, 0] :=
  ⟨(claim_C6 [7, 0] [7] (by decide) (by decide)).1,
   (claim_C6 [7, 0] [7] (by decide) (by decide)).2⟩


/-! ## Claim C7: set/get/clear round trip -/

/-- Full characterization of the single-bit mask, including the contaminated
case: when `i % 32 = 0` and `i ≥ 64` the bit loop ORs word `i/32` into word
`i/32 + 1`, so the mask also holds bit `i + 32`. -/
theorem maskOne_getD_all (L i : Nat) (j : Nat) :
    (maskOne L i).getD j 0 =
      if j = i / 32 ∧ j < L then 2 ^ (i % 32)
      else if i % 32 = 0 ∧ 64 ≤ i ∧ j = i / 32 + 1 ∧ j < L then 1
      else 0 := by
  rcases Nat.eq_zero_or_pos i with rfl | hipos
  · rw [maskOne, longLeftShift, if_pos rfl, matchLen_one_getD]
    norm_num
    split_ifs <;> simp_all
  by_cases hi32 : i = 32
  · subst hi32
    have e1 : maskOne L 32 = shiftArrayRight (matchLen L [1]) 1 0 := by
      simp [maskOne, longLeftShift]
    rw [e1, shiftArrayRight]
    rw [show (matchLen L [1]).length = L from by simp [matchLen]]
    rw [getD_range_map, matchLen_one_getD]
    have h232 : (2 : Nat) ^ (32 % 32) = 1 := by norm_num
    rw [h232]
    have h132 : (32 : Nat) / 32 = 1 := by norm_num
    rw [h132]
    split_ifs <;> omega
  · have hL : (matchLen L [1]).length = L := by simp [matchLen]
    have hv1 : ∀ t, ((if 31 < i then shiftArrayRight (matchLen L [1]) (i / 32) 0
        else matchLen L [1]) : List Nat).getD t 0
        = if t = i / 32 ∧ t < L then 1 else 0 := by
      intro t
      rcases Nat.lt_or_ge 31 i with hgt | hle
      · rw [if_pos hgt, shiftArrayRight, hL, getD_range_map, matchLen_one_getD]
        have hk : 1 ≤ i / 32 := by omega
        split_ifs <;> omega
      · rw [if_neg (by omega), matchLen_one_getD]
        have hk : i / 32 = 0 := by omega
        split_ifs <;> omega
    rw [maskOne, longLeftShift, if_neg (by omega), if_neg hi32]
    rw [show (if 31 < i then shiftArrayRight (matchLen L [1]) (i / 32) 0
        else matchLen L [1]).length = L from by
      rcases Nat.lt_or_ge 31 i with hgt | hle
      · rw [if_pos hgt, shiftArrayRight_length, hL]
      · rw [if_neg (by omega), hL]]
    rw [getD_range_map]
    rcases Nat.lt_or_ge j L with hj | hj
    swap
    · rw [if_neg (by omega), if_neg (by omega), if_neg (by omega)]
    rw [if_pos hj]
    simp only [hv1]
    by_cases hs : i % 32 = 0
    · have h64 : 64 ≤ i := by omega
      have hk2 : 2 ≤ i / 32 := by omega
      rw [hs, wordShl_zero_right, pow_zero]
      have hc1 : ((if j = i / 32 ∧ j < L then 1 else 0) : Nat) % U32 =
          if j = i / 32 ∧ j < L then 1 else 0 := by
        split_ifs <;> norm_num [U32]
      rw [hc1]
      have hcar : (if j = 0 then 0
          else wordShrU (if j - 1 = i / 32 ∧ j - 1 < L then 1 else 0) (32 - 0)) =
          if j = i / 32 + 1 ∧ j < L + 1 ∧ j ≠ 0 then 1 else 0 := by
        by_cases h1 : j = 0
        · rw [if_pos h1, if_neg (by omega)]
        · rw [if_neg h1]
          by_cases h2 : j - 1 = i / 32 ∧ j - 1 < L
          · rw [if_pos h2, wordShrU_32,
              if_pos (show j = i / 32 + 1 ∧ j < L + 1 ∧ j ≠ 0 from
                ⟨by omega, by omega, h1⟩)]
            norm_num [U32]
          · rw [if_neg h2, wordShrU_zero_left, if_neg (by omega)]
      rw [hcar]
      by_cases hjk : j = i / 32
      · rw [if_pos ⟨hjk, hj⟩, if_neg (show ¬(j = i / 32 + 1 ∧ j < L + 1 ∧ j ≠ 0) from
          by omega), if_pos ⟨hjk, hj⟩]
        decide
      · rw [if_neg (show ¬(j = i / 32 ∧ j < L) from by simp [hjk]),
          if_neg (show ¬(j = i / 32 ∧ j < L) from by simp [hjk])]
        by_cases hjk1 : j = i / 32 + 1
        · rw [if_pos (show j = i / 32 + 1 ∧ j < L + 1 ∧ j ≠ 0 from
            ⟨hjk1, by omega, by omega⟩),
            if_pos (show (0 : Nat) = 0 ∧ 64 ≤ i ∧ j = i / 32 + 1 ∧ j < L from
              ⟨rfl, h64, hjk1, hj⟩)]
          decide
        · rw [if_neg (show ¬(j = i / 32 + 1 ∧ j < L + 1 ∧ j ≠ 0) from by simp [hjk1]),
            if_neg (show ¬((0 : Nat) = 0 ∧ 64 ≤ i ∧ j = i / 32 + 1 ∧ j < L) from by
              simp [hjk1])]
          decide
    · have hslt : i % 32 < 32 := Nat.mod_lt _ (by norm_num)
      have hcar : (if j = 0 then 0
          else wordShrU (if j - 1 = i / 32 ∧ j - 1 < L then 1 else 0) (32 - i % 32)) = 0 := by
        split_ifs with h1 h2
        · rfl
        · exact wordShrU_one_small (by omega) (by omega)
        · exact wordShrU_zero_left _
      rw [hcar]
      split_ifs with h1 h2
      · rw [wordShl_one hslt]
        simp
      · omega
      · rw [wordShl_zero_left]
        simp

theorem mod_two_if (x : Nat) : x % 2 = if x.testBit 0 then 1 else 0 := by
  rw [Nat.testBit_zero]
  rcases Nat.mod_two_eq_zero_or_one x with h | h <;> simp [h]

theorem longRightShift_length (v : List Nat) (n : Nat) :
    (longRightShift v n).length = v.length := by
  rw [longRightShift]
  split_ifs <;> simp [shiftArrayLeft]

theorem wordShl_mod_two {y t : Nat} (ht : t % 32 ≠ 0) : wordShl y t % 2 = 0 := by
  rw [wordShl]
  have h2 : (2 : Nat) ∣ U32 := by norm_num [U32]
  rw [Nat.mod_mod_of_dvd _ h2, Nat.mul_mod, Nat.pow_mod]
  have h1 : (2 : Nat) % 2 = 0 := rfl
  rw [h1, Nat.zero_pow (by omega), Nat.mul_zero]

theorem wordShrU_mod_two (x s : Nat) :
    wordShrU x s % 2 = if (x % U32).testBit (s % 32) then 1 else 0 := by
  rw [wordShrU, Nat.testBit_to_div_mod]
  by_cases hb : x % U32 / 2 ^ (s % 32) % 2 = 1
  · simp [hb]
  · have h2 : x % U32 / 2 ^ (s % 32) % 2 = 0 := by omega
    simp [h2]

theorem lor_mod_two (a b : Nat) :
    (a ||| b) % 2 = if a % 2 = 1 ∨ b % 2 = 1 then 1 else 0 := by
  rw [mod_two_if, Nat.testBit_lor, Nat.testBit_zero, Nat.testBit_zero]
  rcases Nat.mod_two_eq_zero_or_one a with h | h <;>
    rcases Nat.mod_two_eq_zero_or_one b with h' | h' <;> simp [h, h']

theorem wordShl_32 (y : Nat) : wordShl y 32 = y % U32 := by
  simp [wordShl]

/-- `LongIntBitBoard.getBit(i)` (`rightShift(data, i).and(1).data[0]`) reads
bit `i`, OR bit `i + 32` as well when `i` is a multiple of 32 at least 64
(the contaminated shift). -/
theorem longGetBit_char (v : List Nat) (i : Nat) (hv : LWF v) :
    BB.getBit (.long v) i =
      if lbit v i = true ∨ (i % 32 = 0 ∧ 64 ≤ i ∧ lbit v (i + 32) = true) then 1 else 0 := by
  show (longAnd (longRightShift v i) (matchLen v.length [1])).getD 0 0 = _
  rcases Nat.eq_zero_or_pos v.length with hL | hL
  · rw [longAnd_getD, if_neg (by rw [longRightShift_length]; omega)]
    have hb : ∀ t, lbit v t = false := by
      intro t
      rw [lbit, List.getD_eq_getElem?_getD, List.getElem?_eq_none (by omega)]
      exact Nat.zero_testBit _
    rw [if_neg (by simp [hb])]
  · rw [longAnd_getD, if_pos (by rw [longRightShift_length]; omega),
      matchLen_getD, if_pos hL,
      show ([1] : List Nat).getD 0 0 = 1 from rfl, Nat.and_one_is_mod]
    -- the first word of the shifted copy
    rcases Nat.eq_zero_or_pos i with rfl | hipos
    · rw [show longRightShift v 0 = v from by rw [longRightShift, if_pos rfl]]
      rw [mod_two_if]
      by_cases b : (v.getD 0 0).testBit 0
      · rw [if_pos b, if_pos (Or.inl (show lbit v 0 = true from b))]
      · rw [if_neg b, if_neg (show ¬(lbit v 0 = true ∨
          (0 : Nat) % 32 = 0 ∧ 64 ≤ 0 ∧ lbit v (0 + 32) = true) from by
            rintro (h | ⟨_, h64, _⟩)
            · exact b h
            · omega)]
    by_cases hi32 : i = 32
    · subst hi32
      rw [show longRightShift v 32 = shiftArrayLeft v 1 0 from by simp [longRightShift]]
      rw [shiftArrayLeft, getD_range_map, if_pos hL]
      have he : (if 0 + 1 < v.length then v.getD (0 + 1) 0 else 0) = v.getD 1 0 := by
        split_ifs with h
        · rfl
        · rw [List.getD_eq_getElem?_getD, List.getElem?_eq_none (by omega)]
          rfl
      rw [he, mod_two_if]
      by_cases b : (v.getD 1 0).testBit 0
      · rw [if_pos b, if_pos (Or.inl (show lbit v 32 = true from b))]
      · rw [if_neg b, if_neg (show ¬(lbit v 32 = true ∨
          (32 : Nat) % 32 = 0 ∧ 64 ≤ 32 ∧ lbit v (32 + 32) = true) from by
            rintro (h | ⟨_, h64, _⟩)
            · exact b h
            · omega)]
    by_cases hs : i % 32 = 0
    · -- contaminated: i % 32 = 0, i ≥ 64
      have h64 : 64 ≤ i := by omega
      have he : (longRightShift v i).getD 0 0 =
          v.getD (i / 32) 0 ||| v.getD (i / 32 + 1) 0 := by
        rw [longRightShift, if_neg (by omega), if_neg hi32, if_pos (by omega),
          shiftArrayLeft]
        rw [show ((List.range v.length).map fun t =>
            wordShrU (v.getD t 0) (i % 32) |||
              wordShl (v.getD (t + 1) 0) (32 - i % 32)).length = v.length from by simp]
        rw [getD_range_map, if_pos hL, getD_range_map]
        rw [hs]
        by_cases hk : 0 + i / 32 < v.length
        · rw [if_pos hk, if_pos hk]
          rw [wordShrU_zero_right, wordShl_32, Nat.zero_add,
            hv.getD_mod, hv.getD_mod]
        · rw [if_neg hk]
          have e1 : v.getD (i / 32) 0 = 0 := by
            rw [List.getD_eq_getElem?_getD, List.getElem?_eq_none (by omega)]
            rfl
          have e2 : v.getD (i / 32 + 1) 0 = 0 := by
            rw [List.getD_eq_getElem?_getD, List.getElem?_eq_none (by omega)]
            rfl
          rw [e1, e2]
          decide
      rw [he, lor_mod_two, mod_two_if, mod_two_if]
      have hl1 : lbit v i = (v.getD (i / 32) 0).testBit 0 := by rw [lbit, hs]
      have hl2 : lbit v (i + 32) = (v.getD (i / 32 + 1) 0).testBit 0 := by
        rw [lbit, show (i + 32) / 32 = i / 32 + 1 from by omega,
          show (i + 32) % 32 = 0 from by omega]
      rw [hl1, hl2]
      by_cases b1 : (v.getD (i / 32) 0).testBit 0 <;>
        by_cases b2 : (v.getD (i / 32 + 1) 0).testBit 0 <;>
          simp [b1, b2, hs, h64]
    · -- plain case: s ≠ 0
      have he : (longRightShift v i).getD 0 0 =
          wordShrU (v.getD (i / 32) 0) (i % 32) |||
            wordShl (v.getD (i / 32 + 1) 0) (32 - i % 32) := by
        rw [longRightShift, if_neg (by omega), if_neg hi32]
        rcases Nat.lt_or_ge 31 i with hgt | hle
        · rw [if_pos hgt, shiftArrayLeft]
          rw [show ((List.range v.length).map fun t =>
              wordShrU (v.getD t 0) (i % 32) |||
                wordShl (v.getD (t + 1) 0) (32 - i % 32)).length = v.length from by simp]
          rw [getD_range_map, if_pos hL, getD_range_map]
          by_cases hk : 0 + i / 32 < v.length
          · rw [if_pos hk, if_pos hk, Nat.zero_add]
          · rw [if_neg hk]
            have e1 : v.getD (i / 32) 0 = 0 := by
              rw [List.getD_eq_getElem?_getD, List.getElem?_eq_none (by omega)]
              rfl
            have e2 : v.getD (i / 32 + 1) 0 = 0 := by
              rw [List.getD_eq_getElem?_getD, List.getElem?_eq_none (by omega)]
              rfl
            rw [e1, e2, wordShrU_zero_left, wordShl_zero_left]
            decide
        · rw [if_neg (by omega), getD_range_map, if_pos hL]
          have hk0 : i / 32 = 0 := by omega
          rw [hk0]
      rw [he, lor_mod_two, wordShrU_mod_two, wordShl_mod_two (by omega)]
      rw [hv.getD_mod, show i % 32 % 32 = i % 32 from by omega]
      by_cases b1 : (v.getD (i / 32) 0).testBit (i % 32)
      · rw [if_pos b1, if_pos (Or.inl (show lbit v i = true from b1))]
        rw [if_pos (Or.inl rfl)]
      · rw [if_neg b1, if_neg (show ¬(lbit v i = true ∨
          i % 32 = 0 ∧ 64 ≤ i ∧ lbit v (i + 32) = true) from by
            rintro (h | ⟨h0, _, _⟩)
            · exact b1 h
            · exact hs h0)]
        rw [if_neg (show ¬((0 : Nat) = 1 ∨ (0 : Nat) = 1) from by omega)]

theorem LWF.getD_all {v : List Nat} (hv : LWF v) (j : Nat) : v.getD j 0 < U32 := by
  rcases Nat.lt_or_ge j v.length with h | h
  · exact hv.getD_lt h
  · rw [List.getD_eq_getElem?_getD, List.getElem?_eq_none (by omega)]
    norm_num [U32]

theorem LWF_maskOne (L i : Nat) : LWF (maskOne L i) := by
  intro w hw
  obtain ⟨j, hj, hev⟩ := List.getElem_of_mem hw
  rw [← hev, show (maskOne L i)[j] = (maskOne L i).getD j 0 from by
    rw [List.getD_eq_getElem?_getD, List.getElem?_eq_getElem hj]
    rfl]
  rw [maskOne_getD_all]
  split_ifs
  · rw [U32_eq_pow]
    exact Nat.pow_lt_pow_right (by norm_num) (Nat.mod_lt _ (by norm_num))
  · norm_num [U32]
  · norm_num [U32]

theorem LWF_longOr (a b : List Nat) (ha : LWF a) (hb : LWF b) : LWF (longOr a b) := by
  intro w hw
  obtain ⟨j, hj, hev⟩ := List.getElem_of_mem hw
  rw [← hev, show (longOr a b)[j] = (longOr a b).getD j 0 from by
    rw [List.getD_eq_getElem?_getD, List.getElem?_eq_getElem hj]
    rfl]
  rw [longOr_getD]
  split_ifs
  · rw [U32_eq_pow]
    exact lorLtTwoPow (U32_eq_pow ▸ ha.getD_all j) (U32_eq_pow ▸ hb.getD_all j)
  · norm_num [U32]

theorem LWF_longAnd (a b : List Nat) (ha : LWF a) : LWF (longAnd a b) := by
  intro w hw
  obtain ⟨j, hj, hev⟩ := List.getElem_of_mem hw
  rw [← hev, show (longAnd a b)[j] = (longAnd a b).getD j 0 from by
    rw [List.getD_eq_getElem?_getD, List.getElem?_eq_getElem hj]
    rfl]
  rw [longAnd_getD]
  split_ifs
  · exact lt_of_le_of_lt (Nat.and_le_left) (ha.getD_all j)
  · norm_num [U32]

theorem wordNot_testBit (a j : Nat) (hj : j < 32) :
    (wordNot a).testBit j = !((a % U32).testBit j) := by
  rw [wordNot, Nat.testBit_xor, show U32 - 1 = 2 ^ 32 - 1 from by norm_num [U32],
    Nat.testBit_two_pow_sub_one]
  simp [hj, Bool.xor_true]

theorem toUint32_intSetBit (d : Int) (i : Nat) :
    toUint32 (intSetBit d i) = toUint32 d ||| 2 ^ (i % 32) := by
  have hpow : 2 ^ (i % 32) < U32 := by
    rw [U32_eq_pow]
    exact Nat.pow_lt_pow_right (by norm_num) (Nat.mod_lt _ (by norm_num))
  have hm : toUint32 (jsShl 1 i) = 2 ^ (i % 32) := by
    rw [jsShl, toUint32_toInt32, toUint32_coe,
      show toUint32 1 = 1 from by norm_num [toUint32, U32], wordShl_one',
      Nat.mod_eq_of_lt hpow]
  rw [intSetBit, jsOr, toUint32_toInt32, toUint32_coe, hm,
    Nat.mod_eq_of_lt (U32_eq_pow ▸ lorLtTwoPow (toUint32_lt_pow d) (U32_eq_pow ▸ hpow))]

theorem toUint32_intClearBit (d : Int) (i : Nat) :
    toUint32 (intClearBit d i) = toUint32 d &&& (2 ^ (i % 32) ^^^ (U32 - 1)) := by
  have hpow : 2 ^ (i % 32) < U32 := by
    rw [U32_eq_pow]
    exact Nat.pow_lt_pow_right (by norm_num) (Nat.mod_lt _ (by norm_num))
  have hm : toUint32 (jsShl 1 i) = 2 ^ (i % 32) := by
    rw [jsShl, toUint32_toInt32, toUint32_coe,
      show toUint32 1 = 1 from by norm_num [toUint32, U32], wordShl_one',
      Nat.mod_eq_of_lt hpow]
  have hnot : toUint32 (jsNot (jsShl 1 i)) = 2 ^ (i % 32) ^^^ (U32 - 1) := by
    rw [jsNot, toUint32_toInt32, toUint32_coe, hm, wordNot, Nat.mod_eq_of_lt hpow]
    refine Nat.mod_eq_of_lt ?_
    rw [U32_eq_pow]
    exact xorLtTwoPow (U32_eq_pow ▸ hpow) (by norm_num)
  have hband : (toUint32 d &&& (2 ^ (i % 32) ^^^ (U32 - 1))) < U32 :=
    lt_of_le_of_lt (Nat.and_le_left) (toUint32_lt d)
  rw [intClearBit, jsAnd, hnot, toUint32_toInt32, toUint32_coe,
    Nat.mod_eq_of_lt hband]

/-- `intGetBit` through `wordShrU_mod_two`. -/
theorem intGetBit_testBit (d : Int) (i : Nat) :
    intGetBit d i = if (toUint32 d).testBit (i % 32) then 1 else 0 := by
  rw [intGetBit, wordShrU_mod_two, Nat.mod_eq_of_lt (toUint32_lt d)]

/-- C7 (confirmed): for both backings and every index inside the declared
width, `setBit(i)` makes `getBit(i)` read 1 and a subsequent `clearBit(i)`
makes it read 0.  On the multi-word backing this holds even at the
contaminated indices (`i % 32 = 0`, `i ≥ 64`): there `setBit` also sets and
`clearBit` also clears bit `i + 32`, and `getBit` reads the OR of the two
bits, so the round trip still observes 1 and then 0. -/
theorem claim_C7 :
    (∀ (d : Int) (i : Nat), i < 32 →
        intGetBit (intSetBit d i) i = 1 ∧
        intGetBit (intClearBit (intSetBit d i) i) i = 0) ∧
    (∀ (v : List Nat) (i : Nat), LWF v → i < 32 * v.length →
        BB.getBit ((BB.long v).setBit i) i = 1 ∧
        BB.getBit (((BB.long v).setBit i).clearBit i) i = 0) := by
  constructor
  · intro d i hi
    have hii : i % 32 = i := Nat.mod_eq_of_lt hi
    constructor
    · rw [intGetBit_testBit, toUint32_intSetBit, hii, Nat.testBit_lor,
        Nat.testBit_two_pow]
      simp
    · rw [intGetBit_testBit, toUint32_intClearBit, toUint32_intSetBit, hii,
        Nat.testBit_land, Nat.testBit_lor, Nat.testBit_xor, Nat.testBit_two_pow,
        show U32 - 1 = 2 ^ 32 - 1 from by norm_num [U32], Nat.testBit_two_pow_sub_one]
      simp [hi]
  · intro v i hv hiL
    have hs : i % 32 < 32 := Nat.mod_lt _ (by norm_num)
    have hk : i / 32 < v.length := Nat.div_lt_of_lt_mul (by omega)
    have hmw : LWF (maskOne v.length i) := LWF_maskOne _ _
    have hw : LWF (longOr v (maskOne v.length i)) := LWF_longOr _ _ hv hmw
    have hmain : (maskOne v.length i).getD (i / 32) 0 = 2 ^ (i % 32) := by
      rw [maskOne_getD_all, if_pos ⟨rfl, hk⟩]
    have hset : (BB.long v).setBit i = .long (longOr v (maskOne v.length i)) := rfl
    constructor
    · rw [hset, longGetBit_char _ _ hw]
      have hb : lbit (longOr v (maskOne v.length i)) i = true := by
        rw [lbit, longOr_getD, if_pos hk, hmain, Nat.testBit_lor, Nat.testBit_two_pow]
        simp
      rw [if_pos (Or.inl hb)]
    · have hclr : ((BB.long v).setBit i).clearBit i =
          .long (longAnd (longOr v (maskOne v.length i))
            (longNot (maskOne (longOr v (maskOne v.length i)).length i))) := rfl
      rw [hclr, longOr_length]
      set w := longOr v (maskOne v.length i) with hwdef
      have hwlen : w.length = v.length := longOr_length _ _
      have hw2 : LWF (longAnd w (longNot (maskOne v.length i))) := LWF_longAnd _ _ hw
      rw [longGetBit_char _ _ hw2]
      have hb1 : lbit (longAnd w (longNot (maskOne v.length i))) i = false := by
        rw [lbit, longAnd_getD, if_pos (by rw [hwlen]; exact hk), longNot_getD,
          if_pos (by rw [maskOne_length]; exact hk), hmain,
          Nat.testBit_land, wordNot_testBit _ _ hs,
          Nat.mod_eq_of_lt (show 2 ^ (i % 32) < U32 from by
            rw [U32_eq_pow]
            exact Nat.pow_lt_pow_right (by norm_num) hs),
          Nat.testBit_two_pow]
        simp
      have hb2 : ¬(i % 32 = 0 ∧ 64 ≤ i ∧
          lbit (longAnd w (longNot (maskOne v.length i))) (i + 32) = true) := by
        rintro ⟨hs0, h64, hbit⟩
        have he32 : (i + 32) / 32 = i / 32 + 1 := by omega
        have hm32 : (i + 32) % 32 = 0 := by omega
        rw [lbit, he32, hm32] at hbit
        rcases Nat.lt_or_ge (i / 32 + 1) v.length with hlt | hge
        · have hcont : (maskOne v.length i).getD (i / 32 + 1) 0 = 1 := by
            rw [maskOne_getD_all, if_neg (by omega), if_pos ⟨hs0, h64, rfl, hlt⟩]
          rw [longAnd_getD, if_pos (by rw [hwlen]; exact hlt), longNot_getD,
            if_pos (by rw [maskOne_length]; exact hlt), hcont,
            Nat.testBit_land, wordNot_testBit _ _ (by norm_num)] at hbit
          simp [show ((1 : Nat) % U32).testBit 0 = true from by norm_num [U32]] at hbit
        · rw [longAnd_getD, if_neg (by rw [hwlen]; omega)] at hbit
          simp [Nat.zero_testBit] at hbit
      rw [if_neg (by
        rintro (h | h)
        · rw [hb1] at h
          cases h
        · exact hb2 h)]



/-- Witness for C7 at concrete inputs, including the contaminated long-board
index 64 (`i % 32 = 0`, `i ≥ 64`, non-top word). -/
theorem claim_C7_witness :
    ((5 : Nat) < 32 ∧
      intGetBit (intSetBit 9 5) 5 = 1 ∧
      intGetBit (intClearBit (intSetBit 9 5) 5) 5 = 0) ∧
    (LWF [0, 0, 0, 0] ∧ 64 < 32 * ([0, 0, 0, 0] : List Nat).length ∧
      BB.getBit ((BB.long [0, 0, 0, 0]).setBit 64) 64 = 1 ∧
      BB.getBit (((BB.long [0, 0, 0, 0]).setBit 64).clearBit 64) 64 = 0) :=
  ⟨⟨by decide, claim_C7.1 9 5 (by decide)⟩,
   ⟨by decide, by decide, claim_C7.2 [0, 0, 0, 0] 64 (by decide) (by decide)⟩⟩

/-! ## Claim C10: frame properties of the queries -/

theorem hext_refl (h : List BB) : hext h h := ⟨le_refl _, fun _ _ => rfl⟩

theorem hext_trans {h1 h2 h3 : List BB} (e1 : hext h1 h2) (e2 : hext h2 h3) : hext h1 h3 :=
  ⟨le_trans e1.1 e2.1, fun a ha => (e2.2 a (lt_of_lt_of_le ha e1.1)).trans (e1.2 a ha)⟩

theorem hread_append_lt (h : List BB) (x : BB) (a : Nat) (ha : a < h.length) :
    hread (h ++ [x]) a = hread h a := by
  rw [hread, hread, List.getD_eq_getElem?_getD, List.getD_eq_getElem?_getD,
    List.getElem?_append_left ha]

theorem hext_append (h : List BB) (x : BB) : hext h (h ++ [x]) :=
  ⟨by simp, fun a ha => hread_append_lt h x a ha⟩

theorem hread_set_ne (h : List BB) (c : Nat) (v : BB) (a : Nat) (hne : c ≠ a) :
    hread (h.set c v) a = hread h a := by
  rw [hread, hread, List.getD_eq_getElem?_getD, List.getD_eq_getElem?_getD,
    List.getElem?_set_ne hne]

theorem hext_alloc_set (h : List BB) (x v : BB) :
    hext h ((h ++ [x]).set h.length v) := by
  refine ⟨by simp, fun a ha => ?_⟩
  rw [hread_set_ne _ _ _ _ (by omega)]
  exact hread_append_lt h x a ha

theorem stGetBit_hext (h : List BB) (a i : Nat) : hext h (stGetBit h a i).2 := by
  unfold stGetBit
  split
  · exact hext_refl h
  · exact hext_alloc_set h _ _

theorem HExt_refl (b : HGB) : HExt b b := ⟨rfl, rfl, rfl, rfl, rfl, rfl, rfl, hext_refl _⟩

theorem HExt_trans {a b c : HGB} (e1 : HExt a b) (e2 : HExt b c) : HExt a c := by
  obtain ⟨x1, x2, x3, x4, x5, x6, x7, x8⟩ := e1
  obtain ⟨y1, y2, y3, y4, y5, y6, y7, y8⟩ := e2
  exact ⟨y1.trans x1, y2.trans x2, y3.trans x3, y4.trans x4, y5.trans x5,
    y6.trans x6, y7.trans x7, hext_trans x8 y8⟩

theorem HExt_heap {b : HGB} {h' : List BB} (e : hext b.heap h') :
    HExt b { b with heap := h' } :=
  ⟨rfl, rfl, rfl, rfl, rfl, rfl, rfl, e⟩

theorem getPlayerBoardST_frame (b : HGB) (p : Nat) : HExt b (getPlayerBoardST b p).2 := by
  unfold getPlayerBoardST
  exact HExt_heap (hext_trans (hext_append _ _) (hext_append _ _))

theorem cellOccupierSTAux_frame (l : List Nat) :
    ∀ (b : HGB) (c : Pos), HExt b (cellOccupierSTAux b c l).2 := by
  induction l with
  | nil => intro b c; exact HExt_refl b
  | cons i rest ih =>
    intro b c
    simp only [cellOccupierSTAux]
    split
    · exact HExt_heap (stGetBit_hext _ _ _)
    · exact HExt_trans (HExt_heap (stGetBit_hext _ _ _)) (ih _ c)

theorem cellOccupierST_frame (b : HGB) (c : Pos) : HExt b (cellOccupierST b c).2 :=
  cellOccupierSTAux_frame _ b c

theorem moveIsValidST_frame (b : HGB) (m : Pos) : HExt b (moveIsValidST b m).2 := by
  unfold moveIsValidST
  split
  · exact cellOccupierST_frame b m
  · exact HExt_refl b

theorem emptyCellsSTAux_frame (l : List Pos) :
    ∀ b : HGB, HExt b (emptyCellsSTAux b l).2 := by
  induction l with
  | nil => intro b; exact HExt_refl b
  | cons c rest ih =>
    intro b
    simp only [emptyCellsSTAux]
    exact HExt_trans (cellOccupierST_frame b c) (ih _)

theorem emptyCellsST_frame (b : HGB) : HExt b (emptyCellsST b).2 :=
  emptyCellsSTAux_frame _ b

theorem orAccStep_frame (st : Nat × HGB) (i : Nat) : HExt st.2 (orAccStep st i).2 := by
  unfold orAccStep
  exact HExt_trans (getPlayerBoardST_frame st.2 i) (HExt_heap (hext_append _ _))

theorem foldl_orAccStep_frame (l : List Nat) :
    ∀ st : Nat × HGB, HExt st.2 (l.foldl orAccStep st).2 := by
  induction l with
  | nil => intro st; exact HExt_refl st.2
  | cons i rest ih =>
    intro st
    rw [List.foldl_cons]
    exact HExt_trans (orAccStep_frame st i) (ih _)

theorem isFullST_frame (b : HGB) : HExt b (isFullST b).2 := by
  unfold isFullST
  exact HExt_trans (HExt_heap (hext_append _ _)) (foldl_orAccStep_frame _ _)

theorem isEmptyST_frame (b : HGB) : HExt b (isEmptyST b).2 := by
  unfold isEmptyST
  exact HExt_trans (HExt_heap (hext_append _ _)) (foldl_orAccStep_frame _ _)

theorem winnerScanST_frame (l : List BB) (p1 p2 : Nat) :
    ∀ b : HGB, HExt b (winnerScanST b p1 p2 l).2 := by
  induction l with
  | nil => intro b; exact HExt_refl b
  | cons st rest ih =>
    intro b
    simp only [winnerScanST]
    split
    · exact HExt_heap (hext_append _ _)
    · split
      · exact HExt_heap (hext_trans (hext_append _ _) (hext_append _ _))
      · exact HExt_trans (HExt_heap (hext_trans (hext_append _ _) (hext_append _ _))) (ih _)

theorem winnerST_frame (b : HGB) : HExt b (winnerST b).2 := by
  simp only [winnerST]
  split
  · exact HExt_trans (getPlayerBoardST_frame b 0)
      (HExt_trans (getPlayerBoardST_frame _ 1) (winnerScanST_frame _ _ _ _))
  · exact HExt_trans (getPlayerBoardST_frame b 0)
      (HExt_trans (getPlayerBoardST_frame _ 1)
        (HExt_trans (winnerScanST_frame _ _ _ _) (isFullST_frame _)))

/-- C10 (confirmed): the query operations `winner`, `isFull`, `isEmpty`,
`emptyCells`, `cellOccupier` and `moveIsValid` never modify the board: run
over the object heap, each call leaves the packed bit-board object at the
board's own address and the move stack exactly as they were — every player
sub-board view is built through the copying statics into freshly allocated
objects, and the only in-place write (`getBit`'s `.and(1)`) hits such a
fresh copy, never the shared storage. -/
theorem claim_C10 (b : HGB) (c m : Pos) (hA : b.addr < b.heap.length) :
    (hread (winnerST b).2.heap b.addr = hread b.heap b.addr ∧
      (winnerST b).2.moves = b.moves) ∧
    (hread (isFullST b).2.heap b.addr = hread b.heap b.addr ∧
      (isFullST b).2.moves = b.moves) ∧
    (hread (isEmptyST b).2.heap b.addr = hread b.heap b.addr ∧
      (isEmptyST b).2.moves = b.moves) ∧
    (hread (emptyCellsST b).2.heap b.addr = hread b.heap b.addr ∧
      (emptyCellsST b).2.moves = b.moves) ∧
    (hread (cellOccupierST b c).2.heap b.addr = hread b.heap b.addr ∧
      (cellOccupierST b c).2.moves = b.moves) ∧
    (hread (moveIsValidST b m).2.heap b.addr = hread b.heap b.addr ∧
      (moveIsValidST b m).2.moves = b.moves) := by
  have W := winnerST_frame b
  have F := isFullST_frame b
  have E := isEmptyST_frame b
  have C := emptyCellsST_frame b
  have O := cellOccupierST_frame b c
  have M := moveIsValidST_frame b m
  exact ⟨⟨W.2.2.2.2.2.2.2.2 b.addr hA, W.2.1⟩,
    ⟨F.2.2.2.2.2.2.2.2 b.addr hA, F.2.1⟩,
    ⟨E.2.2.2.2.2.2.2.2 b.addr hA, E.2.1⟩,
    ⟨C.2.2.2.2.2.2.2.2 b.addr hA, C.2.1⟩,
    ⟨O.2.2.2.2.2.2.2.2 b.addr hA, O.2.1⟩,
    ⟨M.2.2.2.2.2.2.2.2 b.addr hA, M.2.1⟩⟩

/-- Witness for C10 at a concrete two-word heap board. -/
theorem claim_C10_witness :
    hgbExample.addr < hgbExample.heap.length ∧
    ((hread (winnerST hgbExample).2.heap hgbExample.addr =
        hread hgbExample.heap hgbExample.addr ∧
      (winnerST hgbExample).2.moves = hgbExample.moves) ∧
    (hread (isFullST hgbExample).2.heap hgbExample.addr =
        hread hgbExample.heap hgbExample.addr ∧
      (isFullST hgbExample).2.moves = hgbExample.moves) ∧
    (hread (isEmptyST hgbExample).2.heap hgbExample.addr =
        hread hgbExample.heap hgbExample.addr ∧
      (isEmptyST hgbExample).2.moves = hgbExample.moves) ∧
    (hread (emptyCellsST hgbExample).2.heap hgbExample.addr =
        hread hgbExample.heap hgbExample.addr ∧
      (emptyCellsST hgbExample).2.moves = hgbExample.moves) ∧
    (hread (cellOccupierST hgbExample (Pos.mk 0 0)).2.heap hgbExample.addr =
        hread hgbExample.heap hgbExample.addr ∧
      (cellOccupierST hgbExample (Pos.mk 0 0)).2.moves = hgbExample.moves) ∧
    (hread (moveIsValidST hgbExample (Pos.mk 1 1)).2.heap hgbExample.addr =
        hread hgbExample.heap hgbExample.addr ∧
      (moveIsValidST hgbExample (Pos.mk 1 1)).2.moves = hgbExample.moves)) :=
  ⟨by decide, claim_C10 hgbExample (Pos.mk 0 0) (Pos.mk 1 1) (by decide)⟩

/-! ## Claim C9: effect of set/clear on the stored bits -/

theorem lbit_setBit_long (v : List Nat) (i t : Nat)
    (hex : i % 32 ≠ 0 ∨ i < 64 ∨ v.length ≤ i / 32 + 1) (hi : i / 32 < v.length) :
    lbit (longOr v (maskOne v.length i)) t = (lbit v t || decide (t = i)) := by
  rw [lbit, lbit, longOr_getD]
  rcases Nat.lt_or_ge (t / 32) v.length with hk | hk
  · rw [if_pos hk, Nat.testBit_lor, maskOne_getD _ _ hex]
    by_cases hki : t / 32 = i / 32
    · rw [if_pos ⟨hki, hk⟩, Nat.testBit_two_pow]
      by_cases ht : t = i
      · subst ht
        simp
      · have hne : i % 32 ≠ t % 32 := by
          intro he
          exact ht (by omega)
        simp [hne, ht]
    · rw [if_neg (by intro hc; exact hki hc.1)]
      have ht : t ≠ i := by
        intro he
        exact hki (by rw [he])
      simp [Nat.zero_testBit, ht]
  · rw [if_neg (by omega)]
    have h0 : v.getD (t / 32) 0 = 0 := by
      rw [List.getD_eq_getElem?_getD, List.getElem?_eq_none (by omega)]
      rfl
    have ht : t ≠ i := by
      intro he
      rw [he] at hk
      omega
    rw [h0]
    simp [Nat.zero_testBit, ht]

theorem lbit_clearBit_long (v : List Nat) (i t : Nat)
    (hex : i % 32 ≠ 0 ∨ i < 64 ∨ v.length ≤ i / 32 + 1) :
    lbit (longAnd v (longNot (maskOne v.length i))) t = (lbit v t && !decide (t = i)) := by
  have hs : t % 32 < 32 := Nat.mod_lt _ (by norm_num)
  have hpow : 2 ^ (i % 32) < U32 := by
    rw [U32_eq_pow]
    exact Nat.pow_lt_pow_right (by norm_num) (Nat.mod_lt _ (by norm_num))
  rw [lbit, lbit, longAnd_getD]
  rcases Nat.lt_or_ge (t / 32) v.length with hk | hk
  · rw [if_pos hk, longNot_getD, if_pos (by rw [maskOne_length]; exact hk),
      maskOne_getD _ _ hex, Nat.testBit_land]
    by_cases hki : t / 32 = i / 32
    · rw [if_pos ⟨hki, hk⟩, wordNot, Nat.mod_eq_of_lt hpow, Nat.testBit_xor,
        show U32 - 1 = 2 ^ 32 - 1 from by norm_num [U32], Nat.testBit_two_pow_sub_one,
        Nat.testBit_two_pow]
      by_cases ht : t = i
      · subst ht
        simp [hs]
      · have hne : i % 32 ≠ t % 32 := by
          intro he
          exact ht (by omega)
        simp [hne, ht, hs]
    · rw [if_neg (by intro hc; exact hki hc.1),
        show wordNot 0 = 2 ^ 32 - 1 from by norm_num [wordNot, U32],
        Nat.testBit_two_pow_sub_one]
      have ht : t ≠ i := by
        intro he
        exact hki (by rw [he])
      simp [hs, ht]
  · rw [if_neg (by omega)]
    have h0 : v.getD (t / 32) 0 = 0 := by
      rw [List.getD_eq_getElem?_getD, List.getElem?_eq_none (by omega)]
      rfl
    rw [h0]
    simp [Nat.zero_testBit]

theorem testBit_intSetBit (d : Int) (i t : Nat) (hi : i < 32) :
    (toUint32 (intSetBit d i)).testBit t = ((toUint32 d).testBit t || decide (t = i)) := by
  rw [toUint32_intSetBit, Nat.mod_eq_of_lt hi, Nat.testBit_lor, Nat.testBit_two_pow]
  by_cases h : t = i
  · subst h
    simp
  · simp [h, Ne.symm h]

theorem testBit_intClearBit (d : Int) (i t : Nat) (hi : i < 32) :
    (toUint32 (intClearBit d i)).testBit t = ((toUint32 d).testBit t && !decide (t = i)) := by
  rw [toUint32_intClearBit, Nat.mod_eq_of_lt hi, Nat.testBit_land, Nat.testBit_xor,
    show U32 - 1 = 2 ^ 32 - 1 from by norm_num [U32], Nat.testBit_two_pow_sub_one,
    Nat.testBit_two_pow]
  by_cases htlt : t < 32
  · by_cases h : t = i
    · subst h
      simp [htlt]
    · simp [h, Ne.symm h, htlt]
  · have hz : (toUint32 d).testBit t = false :=
      Nat.testBit_eq_false_of_lt (lt_of_lt_of_le (toUint32_lt_pow d)
        (Nat.pow_le_pow_right (by norm_num) (by omega)))
    simp [hz, htlt]

theorem bbBit_setBit (bb : BB) (i t : Nat) (hex : exactBB bb i) (hi : i < bbBits bb) :
    bbBit (bb.setBit i) t = (bbBit bb t || decide (t = i)) := by
  cases bb with
  | int d => exact testBit_intSetBit d i t (by simpa [bbBits] using hi)
  | long v =>
    exact lbit_setBit_long v i t hex (Nat.div_lt_of_lt_mul (by simpa [bbBits, Nat.mul_comm] using hi))

theorem bbBit_clearBit (bb : BB) (i t : Nat) (hex : exactBB bb i) (hi : i < bbBits bb) :
    bbBit (bb.clearBit i) t = (bbBit bb t && !decide (t = i)) := by
  cases bb with
  | int d => exact testBit_intClearBit d i t (by simpa [bbBits] using hi)
  | long v => exact lbit_clearBit_long v i t hex

theorem bbBits_setBit (bb : BB) (i : Nat) : bbBits (bb.setBit i) = bbBits bb := by
  cases bb
  · rfl
  · show (longOr _ _).length * 32 = _
    rw [longOr_length]
    rfl

theorem bbBits_clearBit (bb : BB) (i : Nat) : bbBits (bb.clearBit i) = bbBits bb := by
  cases bb
  · rfl
  · show (longAnd _ _).length * 32 = _
    rw [longAnd_length]
    rfl

theorem exactBB_setBit (bb : BB) (i j : Nat) : exactBB (bb.setBit i) j ↔ exactBB bb j := by
  cases bb
  · exact Iff.rfl
  · show (_ ∨ _ ∨ (longOr _ _).length ≤ _) ↔ _
    rw [longOr_length]
    exact Iff.rfl

theorem exactBB_clearBit (bb : BB) (i j : Nat) : exactBB (bb.clearBit i) j ↔ exactBB bb j := by
  cases bb
  · exact Iff.rfl
  · show (_ ∨ _ ∨ (longAnd _ _).length ≤ _) ↔ _
    rw [longAnd_length]
    exact Iff.rfl

theorem toInt32_idem (x : Int) : toInt32 (toInt32 x) = toInt32 x :=
  toInt32_congr (toUint32_toInt32 x)

theorem BBWF_setBit (bb : BB) (i : Nat) (h : BBWF bb) : BBWF (bb.setBit i) := by
  cases bb with
  | int d =>
    show toInt32 (intSetBit d i) = intSetBit d i
    rw [intSetBit, jsOr]
    exact toInt32_idem _
  | long v => exact LWF_longOr _ _ h (LWF_maskOne _ _)

theorem BBWF_clearBit (bb : BB) (i : Nat) (h : BBWF bb) : BBWF (bb.clearBit i) := by
  cases bb with
  | int d =>
    show toInt32 (intClearBit d i) = intClearBit d i
    rw [intClearBit, jsAnd]
    exact toInt32_idem _
  | long v => exact LWF_longAnd _ _ h

theorem getBit_ne_one_bbBit (bb : BB) (i : Nat) (hwf : BBWF bb) (hi : i < bbBits bb)
    (h : bb.getBit i ≠ 1) : bbBit bb i = false := by
  cases bb with
  | int d =>
    have hi32 : i < 32 := by simpa [bbBits] using hi
    show (toUint32 d).testBit i = false
    rw [show BB.getBit (.int d) i = intGetBit d i from rfl, intGetBit_testBit,
      Nat.mod_eq_of_lt hi32] at h
    by_cases hb : (toUint32 d).testBit i = true
    · rw [if_pos hb] at h
      exact absurd rfl h
    · simpa using hb
  | long v =>
    show lbit v i = false
    rw [longGetBit_char v i hwf] at h
    by_cases hb : lbit v i = true
    · rw [if_pos (Or.inl hb)] at h
      exact absurd rfl h
    · simpa using hb

/-! ## Claim C9: invariant preservation -/

theorem invC9_makeMove (b : GB) (m : Pos) (p : Nat) (hI : b.invC9)
    (hval : b.moveIsValid m = true) (hp : p < b.numberOfPlayerBoards)
    (hex : exactBB b.bitBoard (b.getBitIndex m p)) :
    (b.makeMove m p).invC9 := by
  obtain ⟨hbits, hnd, hmem, hwf, hcfg⟩ := hI
  rw [GB.moveIsValid, Bool.and_eq_true, decide_eq_true_eq] at hval
  have hxy : m.x < b.boardWidth ∧ m.y < b.boardHeight := by
    have h2 := hval.1
    rw [GB.isValidPosition, Bool.and_eq_true, decide_eq_true_eq, decide_eq_true_eq] at h2
    exact h2
  have hidx : b.getIndex m < b.boardSize := by
    rw [GB.getIndex, GB.boardSize]
    calc b.boardWidth * m.y + m.x < b.boardWidth * m.y + b.boardWidth := by omega
      _ = b.boardWidth * (m.y + 1) := by ring
      _ ≤ b.boardWidth * b.boardHeight := Nat.mul_le_mul (le_refl _) (by omega)
  have hiB : b.getBitIndex m p < b.boardSize * b.numberOfPlayerBoards := by
    rw [GB.getBitIndex]
    calc b.getIndex m + b.boardSize * p < b.boardSize + b.boardSize * p := by omega
      _ = b.boardSize * (p + 1) := by ring
      _ ≤ b.boardSize * b.numberOfPlayerBoards := Nat.mul_le_mul (le_refl _) (by omega)
  have hiT : b.getBitIndex m p < bbBits b.bitBoard := lt_of_lt_of_le hiB hcfg
  have hgb : b.bitBoard.getBit (b.getBitIndex m p) ≠ 1 := by
    have hco := hval.2
    rw [GB.cellOccupier, List.find?_eq_none] at hco
    have := hco p (List.mem_range.2 hp)
    simpa using this
  have hclear : bbBit b.bitBoard (b.getBitIndex m p) = false :=
    getBit_ne_one_bbBit _ _ hwf hiT hgb
  have hnotmem : b.getBitIndex m p ∉ b.moves := by
    intro hmem'
    have := (hbits _).2 hmem'
    rw [hclear] at this
    cases this
  refine ⟨?_, ?_, ?_, BBWF_setBit _ _ hwf, ?_⟩
  · intro t
    show bbBit (b.bitBoard.setBit (b.getBitIndex m p)) t = true ↔
      t ∈ b.getBitIndex m p :: b.moves
    rw [bbBit_setBit _ _ _ hex hiT, Bool.or_eq_true, decide_eq_true_eq, List.mem_cons,
      hbits t]
    tauto
  · exact List.nodup_cons.2 ⟨hnotmem, hnd⟩
  · intro t ht
    show exactBB (b.bitBoard.setBit (b.getBitIndex m p)) t ∧
      t < bbBits (b.bitBoard.setBit (b.getBitIndex m p))
    rcases List.mem_cons.1 ht with rfl | ht
    · exact ⟨(exactBB_setBit _ _ _).2 hex, by rw [bbBits_setBit]; exact hiT⟩
    · obtain ⟨he, hb⟩ := hmem t ht
      exact ⟨(exactBB_setBit _ _ _).2 he, by rw [bbBits_setBit]; exact hb⟩
  · show b.boardSize * b.numberOfPlayerBoards ≤ bbBits (b.bitBoard.setBit (b.getBitIndex m p))
    rw [bbBits_setBit]
    exact hcfg

theorem invC9_undo (b : GB) (hI : b.invC9) (hne : b.moves ≠ []) : b.undoLastMove.invC9 := by
  obtain ⟨hbits, hnd, hmem, hwf, hcfg⟩ := hI
  match hm : b.moves with
  | [] => exact absurd hm hne
  | j :: rest =>
    have hj := hmem j (by rw [hm]; exact List.mem_cons_self _ _)
    have hnd' := hm ▸ hnd
    have hjrest : j ∉ rest := (List.nodup_cons.1 hnd').1
    have hrestnd : rest.Nodup := (List.nodup_cons.1 hnd').2
    have he : b.undoLastMove = { b with moves := rest, bitBoard := b.bitBoard.clearBit j } := by
      rw [GB.undoLastMove, GB.undoLastMoveE, hm]
    rw [he]
    refine ⟨?_, hrestnd, ?_, BBWF_clearBit _ _ hwf, ?_⟩
    · intro t
      show bbBit (b.bitBoard.clearBit j) t = true ↔ t ∈ rest
      rw [bbBit_clearBit _ _ _ hj.1 hj.2, Bool.and_eq_true, Bool.not_eq_true',
        decide_eq_false_iff_not]
      constructor
      · rintro ⟨hb, hne'⟩
        have := (hbits t).1 hb
        rw [hm] at this
        rcases List.mem_cons.1 this with rfl | h
        · exact absurd rfl hne'
        · exact h
      · intro ht
        refine ⟨(hbits t).2 (by rw [hm]; exact List.mem_cons_of_mem _ ht), ?_⟩
        intro hEq
        rw [hEq] at ht
        exact hjrest ht
    · intro t ht
      show exactBB (b.bitBoard.clearBit j) t ∧ t < bbBits (b.bitBoard.clearBit j)
      obtain ⟨he', hb'⟩ := hmem t (by rw [hm]; exact List.mem_cons_of_mem _ ht)
      exact ⟨(exactBB_clearBit _ _ _).2 he', by rw [bbBits_clearBit]; exact hb'⟩
    · show b.boardSize * b.numberOfPlayerBoards ≤ bbBits (b.bitBoard.clearBit j)
      rw [bbBits_clearBit]
      exact hcfg

theorem invC9_runOps (ops : List BOp) :
    ∀ b : GB, b.invC9 → okOpsEx b ops = true → (runOps b ops).invC9 := by
  induction ops with
  | nil => intro b hI _; exact hI
  | cons op rest ih =>
    intro b hI hok
    cases op with
    | make m p =>
      rw [okOpsEx] at hok
      simp only [Bool.and_eq_true, decide_eq_true_eq] at hok
      exact ih _ (invC9_makeMove b m p hI hok.1.1.1 hok.1.1.2 hok.1.2) hok.2
    | undo =>
      rw [okOpsEx] at hok
      simp only [Bool.and_eq_true, decide_eq_true_eq] at hok
      exact ih _ (invC9_undo b hI hok.1) hok.2

theorem invC9_fresh (b : GB) (hm : b.moves = [])
    (hz : ∀ t, bbBit b.bitBoard t = false)
    (hwf : BBWF b.bitBoard)
    (hcfg : b.boardSize * b.numberOfPlayerBoards ≤ bbBits b.bitBoard) : b.invC9 := by
  refine ⟨?_, ?_, ?_, hwf, hcfg⟩
  · intro t
    rw [hz t, hm]
    simp
  · rw [hm]
    exact List.nodup_nil
  · intro t ht
    rw [hm] at ht
    exact absurd ht (List.not_mem_nil t)

theorem invC9_mk' (w h pc ec : Nat) (ws : List BB) : (GB.mk' w h pc ec ws).invC9 := by
  refine invC9_fresh _ rfl ?_ ?_ ?_
  · intro t
    show bbBit (if 32 < w * h * (pc + ec) then
      BB.long (List.replicate ((w * h * (pc + ec) + 31) / 32) 0) else BB.int 0) t = false
    split_ifs
    · show lbit (List.replicate ((w * h * (pc + ec) + 31) / 32) 0) t = false
      rw [lbit]
      have h0 : (List.replicate ((w * h * (pc + ec) + 31) / 32) 0).getD (t / 32) 0 = 0 := by
        rcases Nat.lt_or_ge (t / 32) ((w * h * (pc + ec) + 31) / 32) with hlt | hge
        · rw [List.getD_eq_getElem?_getD, List.getElem?_eq_getElem (by simpa using hlt),
            List.getElem_replicate]
          rfl
        · rw [List.getD_eq_getElem?_getD, List.getElem?_eq_none (by simpa using hge)]
          rfl
      rw [h0]
      exact Nat.zero_testBit _
    · show (toUint32 (0 : Int)).testBit t = false
      rw [show toUint32 0 = 0 from by norm_num [toUint32]]
      exact Nat.zero_testBit _
  · show BBWF (if 32 < w * h * (pc + ec) then
      BB.long (List.replicate ((w * h * (pc + ec) + 31) / 32) 0) else BB.int 0)
    split_ifs
    · intro x hx
      rw [List.eq_of_mem_replicate hx]
      norm_num [U32]
    · show toInt32 0 = 0
      decide
  · show w * h * (pc + ec) |> fun _ => _ ≤ _
    show w * h * pc ≤ bbBits (if 32 < w * h * (pc + ec) then
      BB.long (List.replicate ((w * h * (pc + ec) + 31) / 32) 0) else BB.int 0)
    have hle : w * h * pc ≤ w * h * (pc + ec) := Nat.mul_le_mul (le_refl _) (by omega)
    split_ifs with h32
    · show w * h * pc ≤ (List.replicate ((w * h * (pc + ec) + 31) / 32) 0).length * 32
      rw [List.length_replicate]
      omega
    · show w * h * pc ≤ 32
      omega

/-- C9 (counterexample): on a fresh 7 by 7 two-player board (98 bits, four
words) the single contract-obeying move at cell (1,2) by player 1 pushes bit
index 64, but the contaminated `setBit` mask also sets bit 96, so the set of
stored bits is strictly larger than the move stack. -/
theorem claim_C9_counterexample :
    okOps (GB.mk' 7 7 2 0 []) [.make ⟨1, 2⟩ 1] = true ∧
    (runOps (GB.mk' 7 7 2 0 []) [.make ⟨1, 2⟩ 1]).bitSetAt 96 = true ∧
    96 ∉ (runOps (GB.mk' 7 7 2 0 []) [.make ⟨1, 2⟩ 1]).moves := by
  refine ⟨by decide, by decide, by decide⟩

/-- C9 (amended): starting from a freshly constructed board, every operation
sequence obeying the caller contract strengthened with exactness (no
targeted bit index is hit by the mask-construction shift bug, i.e. each
index has `i % 32 ≠ 0`, or `i < 64`, or lands in or beyond the top word)
maintains the correspondence: a bit index is set in the packed bit board
exactly when it is stored on the moves stack. -/
theorem claim_C9_amended (w h pc ec : Nat) (ws : List BB) (ops : List BOp)
    (hok : okOpsEx (GB.mk' w h pc ec ws) ops = true) :
    ∀ i, (runOps (GB.mk' w h pc ec ws) ops).bitSetAt i = true ↔
      i ∈ (runOps (GB.mk' w h pc ec ws) ops).moves :=
  (invC9_runOps ops _ (invC9_mk' w h pc ec ws) hok).1

/-- Witness for the amended C9 on the 7 by 7 board: make (0,0) by player 0
(bit 0, exact), make (3,1) by player 1 (bit 59, exact), then undo. -/
theorem claim_C9_amended_witness :
    okOpsEx (GB.mk' 7 7 2 0 []) [.make ⟨0, 0⟩ 0, .make ⟨3, 1⟩ 1, .undo] = true ∧
    ((runOps (GB.mk' 7 7 2 0 []) [.make ⟨0, 0⟩ 0, .make ⟨3, 1⟩ 1, .undo]).bitSetAt 0 = true ↔
      0 ∈ (runOps (GB.mk' 7 7 2 0 []) [.make ⟨0, 0⟩ 0, .make ⟨3, 1⟩ 1, .undo]).moves) :=
  ⟨by decide, claim_C9_amended 7 7 2 0 [] [.make ⟨0, 0⟩ 0, .make ⟨3, 1⟩ 1, .undo] (by decide) 0⟩


/-! ## Claim C1: minimax versus alphabeta -/

section

set_option maxRecDepth 10000

set_option maxHeartbeats 2000000

/-- C1 (counterexample): on the reachable, non-terminal TicTacToe position
with player 0 on (0,0) and (1,0) and player 1 on (2,0) (packed `0x803`),
depth 5, current player 0, maximising: `minimax` returns move (0,1) with
score 60 while `alphabeta(-Infinity, Infinity)` returns move (1,1) with
score 2520.  The loop passes its `9 - emptyCells.length`-scaled scores as
alpha/beta bounds unscaled into the recursion, so a pruning break fires in a
subtree where the sound comparison would not, and the inflated broken value
propagates to the root. -/
theorem claim_C1_counterexample :
    GB.winner (tttBoard 0x803 []) = .playing ∧
    minimax (baseIface heuristicTTT) 0 5 (tttBoard 0x803 []) true ≠
      alphabeta (baseIface heuristicTTT) 0 5 (tttBoard 0x803 []) .ninf .pinf true := by
  constructor
  · decide
  · decide

end

theorem jlt_pinf_left (x : JNum) : JNum.jlt .pinf x = false := by
  cases x <;> rfl

theorem jlt_ninf_right (x : JNum) : JNum.jlt x .ninf = false := by
  cases x <;> rfl

theorem ab_d0 (I : BoardIface) (cur : Nat) (bb : GB) (a be : JNum) (mx : Bool) :
    alphabeta I cur 0 bb a be mx = minimax I cur 0 bb mx := rfl

theorem abfold_d0_max (I : BoardIface) (cur : Nat) (f : Int) (pid : Nat) (l : List Pos) :
    ∀ (g : GB) (om : Option Pos) (v al : JNum),
      ∃ al', l.foldl (abStep (alphabeta I cur 0) I true f pid)
          { board := g, bestMove := om, bestVal := v, alpha := al, beta := .pinf,
            broke := false } =
        { board := (l.foldl (mmStep (minimax I cur 0) I true f pid) (g, om, v)).1,
          bestMove := (l.foldl (mmStep (minimax I cur 0) I true f pid) (g, om, v)).2.1,
          bestVal := (l.foldl (mmStep (minimax I cur 0) I true f pid) (g, om, v)).2.2,
          alpha := al', beta := .pinf, broke := false } := by
  induction l with
  | nil =>
    intro g om v al
    exact ⟨al, rfl⟩
  | cons mv rest ih =>
    intro g om v al
    rw [List.foldl_cons, List.foldl_cons]
    have hab : abStep (alphabeta I cur 0) I true f pid
        { board := g, bestMove := om, bestVal := v, alpha := al, beta := .pinf,
          broke := false } mv =
        { board := (mmStep (minimax I cur 0) I true f pid (g, om, v) mv).1,
          bestMove := (mmStep (minimax I cur 0) I true f pid (g, om, v) mv).2.1,
          bestVal := (mmStep (minimax I cur 0) I true f pid (g, om, v) mv).2.2,
          alpha := JNum.jmax al (JNum.jmax (JNum.mulInt f
            (minimax I cur 0 (I.makeMove g mv pid) false).2) v),
          beta := .pinf, broke := false } := by
      by_cases hC : JNum.jsNeq (JNum.jmax (JNum.mulInt f
          (minimax I cur 0 (I.makeMove g mv pid) false).2) v) v = true
      · simp [abStep, mmStep, jlt_pinf_left, ab_d0, hC]
      · simp [abStep, mmStep, jlt_pinf_left, ab_d0, hC]
    rw [hab]
    exact ih (mmStep (minimax I cur 0) I true f pid (g, om, v) mv).1
      (mmStep (minimax I cur 0) I true f pid (g, om, v) mv).2.1
      (mmStep (minimax I cur 0) I true f pid (g, om, v) mv).2.2
      (JNum.jmax al (JNum.jmax (JNum.mulInt f
        (minimax I cur 0 (I.makeMove g mv pid) false).2) v))

theorem abfold_d0_min (I : BoardIface) (cur : Nat) (f : Int) (pid : Nat) (l : List Pos) :
    ∀ (g : GB) (om : Option Pos) (v be : JNum),
      ∃ be', l.foldl (abStep (alphabeta I cur 0) I false f pid)
          { board := g, bestMove := om, bestVal := v, alpha := .ninf, beta := be,
            broke := false } =
        { board := (l.foldl (mmStep (minimax I cur 0) I false f pid) (g, om, v)).1,
          bestMove := (l.foldl (mmStep (minimax I cur 0) I false f pid) (g, om, v)).2.1,
          bestVal := (l.foldl (mmStep (minimax I cur 0) I false f pid) (g, om, v)).2.2,
          alpha := .ninf, beta := be', broke := false } := by
  induction l with
  | nil =>
    intro g om v be
    exact ⟨be, rfl⟩
  | cons mv rest ih =>
    intro g om v be
    rw [List.foldl_cons, List.foldl_cons]
    have hab : abStep (alphabeta I cur 0) I false f pid
        { board := g, bestMove := om, bestVal := v, alpha := .ninf, beta := be,
          broke := false } mv =
        { board := (mmStep (minimax I cur 0) I false f pid (g, om, v) mv).1,
          bestMove := (mmStep (minimax I cur 0) I false f pid (g, om, v) mv).2.1,
          bestVal := (mmStep (minimax I cur 0) I false f pid (g, om, v) mv).2.2,
          alpha := .ninf,
          beta := JNum.jmin be (JNum.jmin (JNum.mulInt f
            (minimax I cur 0 (I.makeMove g mv pid) true).2) v),
          broke := false } := by
      by_cases hC : JNum.jsNeq (JNum.jmin (JNum.mulInt f
          (minimax I cur 0 (I.makeMove g mv pid) true).2) v) v = true
      · simp [abStep, mmStep, jlt_ninf_right, ab_d0, hC]
      · simp [abStep, mmStep, jlt_ninf_right, ab_d0, hC]
    rw [hab]
    exact ih (mmStep (minimax I cur 0) I false f pid (g, om, v) mv).1
      (mmStep (minimax I cur 0) I false f pid (g, om, v) mv).2.1
      (mmStep (minimax I cur 0) I false f pid (g, om, v) mv).2.2
      (JNum.jmin be (JNum.jmin (JNum.mulInt f
        (minimax I cur 0 (I.makeMove g mv pid) true).2) v))

/-- C1 (amended): at depth 1 `alphabeta(1, -Infinity, Infinity, maximisingPlayer)`
and `minimax(1, maximisingPlayer)` agree on every board and interface: the
depth-0 recursive calls ignore the bounds, and against the infinite initial
bound the break comparison can never fire, so both loops compute the same
best move and score.  (At depths at least 2 the equivalence fails, see the
counterexample: the bounds are passed into the recursion without the
`9 - emptyCells.length` rescaling that the scores receive.) -/
theorem claim_C1_amended (I : BoardIface) (cur : Nat) (b : GB) (maxi : Bool) :
    alphabeta I cur 1 b .ninf .pinf maxi = minimax I cur 1 b maxi := by
  show alphabeta I cur (0 + 1) b .ninf .pinf maxi = minimax I cur (0 + 1) b maxi
  rw [alphabeta, minimax]
  by_cases hw : I.winner b ≠ .playing
  · rw [if_pos hw, if_pos hw]
  · rw [if_neg hw, if_neg hw]
    cases maxi with
    | true =>
      obtain ⟨al', h⟩ := abfold_d0_max I cur (9 - ((I.emptyCells b).length : Int))
        cur (I.emptyCells b) b none .ninf .ninf
      show ((List.foldl (abStep (alphabeta I cur 0) I true
            (9 - ((I.emptyCells b).length : Int)) cur)
          { board := b, bestMove := none, bestVal := .ninf, alpha := .ninf, beta := .pinf,
            broke := false } (I.emptyCells b)).bestMove,
        (List.foldl (abStep (alphabeta I cur 0) I true
            (9 - ((I.emptyCells b).length : Int)) cur)
          { board := b, bestMove := none, bestVal := .ninf, alpha := .ninf, beta := .pinf,
            broke := false } (I.emptyCells b)).bestVal) =
        ((List.foldl (mmStep (minimax I cur 0) I true
            (9 - ((I.emptyCells b).length : Int)) cur) (b, none, .ninf)
          (I.emptyCells b)).2.1,
         (List.foldl (mmStep (minimax I cur 0) I true
            (9 - ((I.emptyCells b).length : Int)) cur) (b, none, .ninf)
          (I.emptyCells b)).2.2)
      rw [h]
    | false =>
      obtain ⟨be', h⟩ := abfold_d0_min I cur (9 - ((I.emptyCells b).length : Int))
        ((cur + 1) % 2) (I.emptyCells b) b none .pinf .pinf
      show ((List.foldl (abStep (alphabeta I cur 0) I false
            (9 - ((I.emptyCells b).length : Int)) ((cur + 1) % 2))
          { board := b, bestMove := none, bestVal := .pinf, alpha := .ninf, beta := .pinf,
            broke := false } (I.emptyCells b)).bestMove,
        (List.foldl (abStep (alphabeta I cur 0) I false
            (9 - ((I.emptyCells b).length : Int)) ((cur + 1) % 2))
          { board := b, bestMove := none, bestVal := .pinf, alpha := .ninf, beta := .pinf,
            broke := false } (I.emptyCells b)).bestVal) =
        ((List.foldl (mmStep (minimax I cur 0) I false
            (9 - ((I.emptyCells b).length : Int)) ((cur + 1) % 2)) (b, none, .pinf)
          (I.emptyCells b)).2.1,
         (List.foldl (mmStep (minimax I cur 0) I false
            (9 - ((I.emptyCells b).length : Int)) ((cur + 1) % 2)) (b, none, .pinf)
          (I.emptyCells b)).2.2)
      rw [h]

end MiniGames
